import Mathlib

/-!
Verification development for the runtime fetch engine of `osobny-spravodaj`
(`tools/run_fetch.py`).  The Python source is shallowly embedded: pure string
helpers are translated character-by-character (Python `re.sub` calls are
embedded as explicit scanners with the same leftmost, greedy, non-overlapping
semantics), machine integers are `Int` (Python ints are unbounded, so no
wrap-around is modelled), and the external capabilities (HTTP fetch, feed
parser, HTML parser, `urljoin`/`urlparse`, and the permissive date parsers)
are inputs to the embedded functions, as the spec treats them
("opaque capabilities").
-/

namespace RunFetch

/-- Python `\s` on the characters relevant here (ASCII whitespace plus the
separator controls and NBSP that Python's `re` also treats as whitespace). -/
def isPySpace (c : Char) : Bool :=
  c = ' ' ∨ c = '\t' ∨ c = '\n' ∨ c = '\r' ∨ c = '\x0b' ∨ c = '\x0c' ∨
  c = '\x1c' ∨ c = '\x1d' ∨ c = '\x1e' ∨ c = '\x1f' ∨ c = '\x85' ∨ c = '\xa0'

/-- Membership in the character class `[a-z0-9]` of `norm_key`. -/
def isAlnumLow (c : Char) : Bool :=
  ('a' ≤ c ∧ c ≤ 'z') ∨ ('0' ≤ c ∧ c ≤ '9')

/-- Python `str.lower()` per character, on the basic latin range (given as an
explicit table to keep case analysis elementary).  A lowered non-ASCII letter
stays outside `[a-z0-9]` and outside `\s` either way, which is all the
downstream character classes inspect. -/
def lowChar (c : Char) : Char :=
  match c with
  | 'A' => 'a' | 'B' => 'b' | 'C' => 'c' | 'D' => 'd' | 'E' => 'e' | 'F' => 'f'
  | 'G' => 'g' | 'H' => 'h' | 'I' => 'i' | 'J' => 'j' | 'K' => 'k' | 'L' => 'l'
  | 'M' => 'm' | 'N' => 'n' | 'O' => 'o' | 'P' => 'p' | 'Q' => 'q' | 'R' => 'r'
  | 'S' => 's' | 'T' => 't' | 'U' => 'u' | 'V' => 'v' | 'W' => 'w' | 'X' => 'x'
  | 'Y' => 'y' | 'Z' => 'z' | _ => c

/-- Drop the maximal run of `p`-characters from both ends of a list
(Python `str.strip()` with `p` = whitespace). -/
def pyStripP (p : Char → Bool) (l : List Char) : List Char :=
  ((l.dropWhile p).reverse.dropWhile p).reverse

/-- Scanner for Python `re.sub(r"C+", rep, s)` where `C` is the class decided
by `p`: every maximal run of `p`-characters is replaced by the single
character `rep`.  The flag records whether we are inside a run whose
replacement has already been emitted. -/
def collapseRunsGo (p : Char → Bool) (rep : Char) : Bool → List Char → List Char
  | _, [] => []
  | inRun, c :: cs =>
    if p c then
      if inRun then collapseRunsGo p rep true cs
      else rep :: collapseRunsGo p rep true cs
    else c :: collapseRunsGo p rep false cs

/-- Replace every maximal run of `p`-characters by one `rep` character. -/
def collapseRuns (p : Char → Bool) (rep : Char) (l : List Char) : List Char :=
  collapseRunsGo p rep false l

/-- Embeds `safe_text` on string input: `str(x).strip()`.  (All call sites in
the embedded fragment pass strings; `None` arguments are modelled by the
callers passing `""`.) -/
def safe_text (s : String) : String :=
  ⟨pyStripP isPySpace s.data⟩

/-- Embeds `norm_space`: `re.sub(r"\s+", " ", s or "").strip()`. -/
def norm_space (s : String) : String :=
  ⟨pyStripP isPySpace (collapseRuns isPySpace ' ' s.data)⟩

/-- Membership in the character class `[^a-z0-9]` of `norm_key`. -/
def notAl (c : Char) : Bool := ¬ isAlnumLow c

/-- Embeds `norm_key`: `norm_space`, then `str.lower()` (modelled by
`lowChar`, see there), then `re.sub(r"[^a-z0-9]+", " ", s).strip()`. -/
def norm_key (s : String) : String :=
  ⟨pyStripP isPySpace
    (collapseRuns notAl ' ' ((norm_space s).data.map lowChar))⟩

/-! ### `strip_utm`

`strip_utm` performs two `re.sub`s:

* `re.sub(r"(\?|&)(utm_[^=]+|fbclid|gclid|mc_cid|mc_eid)=[^&#]+", "", url, flags=re.IGNORECASE)`
* `re.sub(r"[?&]+$", "", url)`

The first is embedded as the scanner `sub1` below: at each position whose
character is `?` or `&` it attempts the (deterministic, because the
quantifiers `[^=]+` and `[^&#]+` are runs that admit no useful backtracking)
alternatives in order, deletes a successful match and resumes after it.
The second deletes one trailing run of `?`/`&`; with Python's default `$`
semantics the run may also sit just before a newline that ends the string. -/

/-- Case-insensitively strip the literal `lit` (given lowercase) from the
front of `l`, returning the remainder. -/
def stripCI : List Char → List Char → Option (List Char)
  | [], l => some l
  | _ :: _, [] => none
  | c :: cs, x :: xs => if lowChar x = c then stripCI cs xs else none

/-- Value characters of the tracking-parameter regex: the class `[^&#]`. -/
def vChar (c : Char) : Bool := c ≠ '&' ∧ c ≠ '#'

/-- Name-run characters of the `utm_` branch: the class `[^=]`. -/
def rChar (c : Char) : Bool := c ≠ '='

/-- Match `=` followed by a nonempty `[^&#]+` value; return the rest. -/
def tryVal : List Char → Option (List Char)
  | '=' :: t2 =>
    if (t2.takeWhile vChar).isEmpty then none else some (t2.dropWhile vChar)
  | _ => none

/-- The `utm_[^=]+=...` alternative (after the leading `?`/`&`). -/
def tryUtm (l : List Char) : Option (List Char) :=
  match stripCI ['u', 't', 'm', '_'] l with
  | none => none
  | some t =>
    if (t.takeWhile rChar).isEmpty then none else tryVal (t.dropWhile rChar)

/-- A fixed-name alternative `lit=...` (after the leading `?`/`&`). -/
def tryLit (lit : List Char) (l : List Char) : Option (List Char) :=
  match stripCI lit l with
  | none => none
  | some t => tryVal t

/-- Ordered alternation, as the regex engine tries the branches. -/
def matchTail (l : List Char) : Option (List Char) :=
  match tryUtm l with
  | some r => some r
  | none =>
  match tryLit ['f', 'b', 'c', 'l', 'i', 'd'] l with
  | some r => some r
  | none =>
  match tryLit ['g', 'c', 'l', 'i', 'd'] l with
  | some r => some r
  | none =>
  match tryLit ['m', 'c', '_', 'c', 'i', 'd'] l with
  | some r => some r
  | none => tryLit ['m', 'c', '_', 'e', 'i', 'd'] l

/-- Is the character `?` or `&` (the regex's mandatory first group). -/
def isQA (c : Char) : Bool := c = '?' ∨ c = '&'

/-- Fueled scanner for the first `re.sub`: deletes every (leftmost,
non-overlapping) match.  Fuel only serves structural recursion; `l.length`
fuel is always enough. -/
def sub1F : Nat → List Char → List Char
  | 0, l => l
  | _ + 1, [] => []
  | n + 1, c :: cs =>
    if isQA c then
      match matchTail cs with
      | some r => sub1F n r
      | none => c :: sub1F n cs
    else c :: sub1F n cs

/-- The first substitution of `strip_utm`. -/
def sub1 (l : List Char) : List Char := sub1F l.length l

/-- The second substitution of `strip_utm`: `re.sub(r"[?&]+$", "", url)`.
Python's `$` matches at the end of the string and also just before a
newline that is the last character. -/
def sub2 (l : List Char) : List Char :=
  match l.reverse with
  | '\n' :: rest => ((rest.dropWhile isQA).reverse) ++ ['\n']
  | _ => (l.reverse.dropWhile isQA).reverse

/-- Embeds `strip_utm`. -/
def strip_utm (url : String) : String :=
  if url = "" then url else ⟨sub2 (sub1 url.data)⟩

example : strip_utm "a?utm_x=1&b=2" = "a&b=2" := by decide
example : strip_utm "?utm_a=b?utm_c=d" = "" := by decide
example : strip_utm "?utm_a&fbclid=x" = "" := by decide
example : strip_utm "?utm_a=&gclid=v&x=y" = "?utm_a=&x=y" := by decide
example : strip_utm "?utm_ab&fbclid=zzz&x=y" = "&x=y" := by decide
example : strip_utm "a?&" = "a" := by decide
example : strip_utm "a?UTM_X=1" = "a" := by decide
example : strip_utm "?utm_=v" = "?utm_=v" := by decide
example : strip_utm "?utm_a=" = "?utm_a=" := by decide
example : strip_utm "??\n??" = "??\n" := by decide
example : strip_utm "??\n" = "\n" := by decide
example : strip_utm "abc?&\nxyz" = "abc?&\nxyz" := by decide
example : strip_utm "http://x?utm_aa=bb" = "http://x" := by decide
example : norm_key "  A,,b  9! " = "a b 9" := by decide
example : norm_key "Košice" = "ko ice" := by decide
example : norm_space "  a \t b " = "a b" := by decide

/-! ### Data model -/

/-- Embeds the dataclass `SourceCfg`.  `urls_feed`/`urls_home` are `Option`
because the registry may omit them; the Python falsiness test `not url` is
rendered as `none` or `some ""`. -/
structure SourceCfg where
  source_id : String
  name : String
  urls_feed : Option String
  urls_home : Option String
  fetch_method : String
  geo_default : String
  brief_level : String
  boost : Int
  impact_bias : String
  tags_default : List String
deriving DecidableEq

/-- Embeds the dataclass `Item`.  `published` holds the serialized timestamp
(`pub_dt.isoformat()` in the code, `None` when no date was resolved). -/
structure Item where
  source_id : String
  source_name : String
  title : String
  url : String
  published : Option String
  summary : String
  geo : String
  brief_level : String
  tags : List String
  score : Int
deriving DecidableEq

/-! ### Scoring -/

/-- Embeds the module constant `GEO_WEIGHT` together with the call pattern
`GEO_WEIGHT.get(geo, 1)`: the fixed table with default weight 1. -/
def GEO_WEIGHT (geo : String) : Int :=
  if geo = "BA" then 3
  else if geo = "BSK" then 2
  else if geo = "SR" then 1
  else if geo = "SUSEDIA" then 1
  else if geo = "EU_GLOBAL" then 1
  else 1

/-- Embeds `time_score`.  Datetimes enter `time_score` only through
`to_date` (local calendar dates), so dates are embedded as `Int` day
ordinals: `pub_d` is `to_date(pub_dt)` and `today` is `to_date(now)`;
`today + 1` is tomorrow, `today - 1` yesterday. -/
def time_score (pub_d : Option Int) (today : Int) : Int :=
  match pub_d with
  | none => 0
  | some d =>
    if d = today ∨ d = today + 1 then 2
    else if d = today - 1 then 2
    else if today - 7 ≤ d ∧ d ≤ today then 1
    else 0

/-- Embeds `impact_bias_bonus`. -/
def impact_bias_bonus (impact_bias : String) : Int :=
  if impact_bias = "urgent_boost" ∨ impact_bias = "practical_boost" then 1
  else if impact_bias = "low_impact" then -1
  else 0

/-- The score expression shared by both strategies:
`time_score(pub_dt, now) + GEO_WEIGHT.get(geo, 1) + boost + impact_bias_bonus(bias)`
(the `int(...)` around it is the identity on integers). -/
def scoreOf (pub_d : Option Int) (today : Int) (geo : String) (boost : Int)
    (impact_bias : String) : Int :=
  time_score pub_d today + GEO_WEIGHT geo + boost + impact_bias_bonus impact_bias

/-! ### Aggregator: ordering and deduplication -/

/-- ASCII lowering of a whole string (Python `str.lower()` as used on titles
for the sort key; see the note on `norm_key`). -/
def lowerStr (s : String) : String := ⟨s.data.map lowChar⟩

/-- Code-point lexicographic strict order on character lists, which is
Python's `<` on strings. -/
def lexLt : List Char → List Char → Bool
  | _, [] => false
  | [], _ :: _ => true
  | c :: cs, d :: ds => if c < d then true else if d < c then false else lexLt cs ds

/-- Python string `<`. -/
def strLt (a b : String) : Prop := lexLt a.data b.data = true

/-- Python string `<=`. -/
def strLe (a b : String) : Prop := strLt a b ∨ a = b

instance : DecidableRel strLt := fun a b => by unfold strLt; infer_instance

instance : DecidableRel strLe := fun a b => by unfold strLe; infer_instance

/-- The sort key `(-it.score, it.published or "", it.title.lower())`. -/
def sortKey (it : Item) : Int × String × String :=
  (-it.score, it.published.getD "", lowerStr it.title)

/-- Lexicographic comparison of sort keys (Python tuple `<=` on
`(int, str, str)`; string order is code-point lexicographic on both sides). -/
def keyLe (x y : Int × String × String) : Prop :=
  x.1 < y.1 ∨ (x.1 = y.1 ∧
    (strLt x.2.1 y.2.1 ∨ (x.2.1 = y.2.1 ∧ strLe x.2.2 y.2.2)))

instance : DecidableRel keyLe := fun x y => by
  unfold keyLe; infer_instance

/-- The item comparison used by `sorted(items, key=...)`. -/
def kle (a b : Item) : Prop := keyLe (sortKey a) (sortKey b)

instance : DecidableRel kle := fun a b => by
  unfold kle; infer_instance

/-- Embeds `sort_items` (and the identical `sorted(...)` in
`fetch_html_list`).  Python's `sorted` is a stable sort by the key, which is
exactly stable insertion sort with the non-strict key comparison. -/
def sort_items (items : List Item) : List Item :=
  List.insertionSort kle items

/-- The cross-source deduplication key
`(strip_utm(it.url), norm_key(it.title))`. -/
def itemKey (it : Item) : String × String := (strip_utm it.url, norm_key it.title)

/-- First-occurrence-wins filtering over an already-seen key set, the loop
shape shared by `dedupe` and the intra-source deduplication in
`fetch_html_list` (the Python `seen` set is used only through membership, so
a list of keys is an equivalent model). -/
def firstWins {α κ : Type} [DecidableEq κ] (key : α → κ) :
    List κ → List α → List α
  | _, [] => []
  | seen, x :: rest =>
    if key x ∈ seen then firstWins key seen rest
    else x :: firstWins key (key x :: seen) rest

/-- Embeds `dedupe`. -/
def dedupe (items : List Item) : List Item := firstWins itemKey [] items

/-- Modelled from the spec's wording of §4.5 for the refinement claim C2:
"first occurrence wins, later duplicates are dropped silently" — keep the
head, delete every later item with the same key, recurse. -/
def dedupeSpec : List Item → List Item
  | [] => []
  | x :: rest =>
    x :: dedupeSpec (rest.filter (fun y => itemKey y ≠ itemKey x))
termination_by l => l.length
decreasing_by
  simp only [List.length_cons]
  exact Nat.lt_succ_of_le (List.length_filter_le _ _)

/-! ### Feed strategy (`fetch_rss`) -/

/-- A parsed feed entry as the Feed Strategy consumes it.  `title`, `link`
and `summary` are the raw strings the parser returned (`""` models a missing
field, matching Python's `or` chains); `pub` is the result of
`parse_entry_datetime(entry)`, oracled as a local calendar day since the
structured/free-text date resolution is built on the external
`feedparser`/`dateutil` capabilities. -/
structure Entry where
  title : String
  link : String
  pub : Option Int
  summary : String
deriving DecidableEq

/-- The result of `feedparser.parse`: the bozo flag, the optional
`bozo_exception` (rendered as its message), and the entry list. -/
structure ParsedFeed where
  bozo : Bool
  bozo_exception : Option String
  entries : List Entry
deriving DecidableEq

/-- Outcome of the `http_get` capability for a feed source: an exception
(with its message) or the fetched text, already run through the parser. -/
inductive FetchOutcome where
  | failed (err : String)
  | ok (feed : ParsedFeed)
deriving DecidableEq

/-- Warning emitted for a missing `urls.feed`. -/
def missingFeedMsg (src : SourceCfg) : String :=
  "[WARN] " ++ src.source_id ++ ": missing urls.feed"

/-- Warning emitted when the fetch raises. -/
def fetchFailedMsg (src : SourceCfg) (e : String) : String :=
  "[WARN] " ++ src.source_id ++ ": fetch failed: " ++ e

/-- Warning emitted for a bozo (malformed but recovered) feed document. -/
def bozoMsg (src : SourceCfg) (exc : String) : String :=
  "[WARN] " ++ src.source_id ++ ": RSS parse bozo: " ++ exc

/-- Serialization of the oracled date (`pub_dt.isoformat()`). -/
def isoStr (d : Int) : String := toString d

/-- The `Item` literal built inside the `fetch_rss` entry loop. -/
def mkRssItem (src : SourceCfg) (now : Int) (title link : String)
    (pub : Option Int) (summary : String) : Item :=
  { source_id := src.source_id
    source_name := src.name
    title := title
    url := link
    published := pub.map isoStr
    summary := summary
    geo := src.geo_default
    brief_level := src.brief_level
    tags := src.tags_default
    score := scoreOf pub now src.geo_default src.boost src.impact_bias }

/-- One iteration of the `fetch_rss` entry loop: normalize the title,
canonicalize the link, skip when either is empty. -/
def rssEntryItem (src : SourceCfg) (now : Int) (entry : Entry) : Option Item :=
  let title := norm_space (safe_text entry.title)
  let link := strip_utm (safe_text entry.link)
  if title = "" ∨ link = "" then none
  else some (mkRssItem src now title link entry.pub
    (norm_space (safe_text entry.summary)))

/-- Embeds `fetch_rss`. -/
def fetch_rss (src : SourceCfg) (limit : Nat) (now : Int)
    (world : FetchOutcome) : List Item × List String :=
  match src.urls_feed with
  | none => ([], [missingFeedMsg src])
  | some u =>
    if u = "" then ([], [missingFeedMsg src])
    else
      match world with
      | .failed e => ([], [fetchFailedMsg src e])
      | .ok feed =>
        let warns :=
          match feed.bozo, feed.bozo_exception with
          | true, some exc => [bozoMsg src exc]
          | _, _ => []
        ((feed.entries.take limit).filterMap (rssEntryItem src now), warns)

/-! ### Heuristic listing strategy (`fetch_html_list`) -/

/-- An anchor element of the selected region (`region.find_all("a",
href=True)`): the raw `href` attribute, the anchor's own visible text
(`a.get_text(" ")`), and the containing element's text when a parent
exists. -/
structure Anchor where
  href : String
  text : String
  parentText : Option String
deriving DecidableEq

/-- The parsed page: the anchor list of the preferred region
(`main`, else `article`, else the whole document — region selection is part
of the opaque HTML-parsing capability). -/
structure HtmlPage where
  anchors : List Anchor
deriving DecidableEq

/-- Outcome of `http_get` + `BeautifulSoup` for a listing source. -/
inductive HtmlFetch where
  | failed (err : String)
  | ok (page : HtmlPage)
deriving DecidableEq

/-- The URL/date capabilities used by the listing strategy:
`urllib.parse.urljoin`, `urlparse(u).netloc` (total; a parse failure inside
`is_same_domain` is modelled by whatever string the oracle returns), and
`guess_date_from_text`, whose regex + `dateutil` pipeline is consumed only
as an opaque `Optional[date]`. -/
structure UrlOracle where
  urljoin : String → String → String
  netloc : String → String
  guess_date : String → Option Int

/-- Case-insensitive literal test at the front of a list. -/
def startsWithCI (lit : List Char) (l : List Char) : Bool :=
  (stripCI lit l).isSome

/-- Embeds `_BAD_HREF.match(href)`:
`^(javascript:|mailto:|tel:|#)` with `re.IGNORECASE`. -/
def badHref (href : String) : Bool :=
  startsWithCI ['j', 'a', 'v', 'a', 's', 'c', 'r', 'i', 'p', 't', ':'] href.data ∨
  startsWithCI ['m', 'a', 'i', 'l', 't', 'o', ':'] href.data ∨
  startsWithCI ['t', 'e', 'l', ':'] href.data ∨
  startsWithCI ['#'] href.data

/-- Embeds `is_same_domain`: compare lowercased netlocs. -/
def is_same_domain (o : UrlOracle) (url base : String) : Bool :=
  lowerStr (o.netloc url) = lowerStr (o.netloc base)

/-- Python `url.rstrip("/")`. -/
def rstripSlash (s : String) : String :=
  ⟨(s.data.reverse.dropWhile (fun c => c = '/')).reverse⟩

/-- Exact literal test at the front of a list. -/
def startsWithL : List Char → List Char → Bool
  | [], _ => true
  | _ :: _, [] => false
  | c :: cs, x :: xs => c = x ∧ startsWithL cs xs

/-- Substring containment on lists. -/
def containsL (pat : List Char) : List Char → Bool
  | [] => pat.isEmpty
  | c :: cs => startsWithL pat (c :: cs) ∨ containsL pat cs

/-- Python `sub in s` (substring test). -/
def containsSub (sub s : String) : Bool := containsL sub.data s.data

/-- Embeds `allowlist_filter`. -/
def allowlist_filter (src : SourceCfg) (url : String) : Bool :=
  match src.urls_home with
  | none => true
  | some home =>
    if home = "" then true
    else if src.source_id = "BA_CITY_NEWS" then
      containsSub "/transparentne-mesto/aktuality" url ∧
        rstripSlash url ≠ rstripSlash home
    else if src.source_id = "SR_ZJAZD" then
      rstripSlash url ≠ rstripSlash home
    else true

/-- A surviving candidate `(text, abs_url, pub_dt, summary)`. -/
structure Candidate where
  title : String
  url : String
  pub : Option Int
  summary : String
deriving DecidableEq

/-- The filter pipeline applied to one anchor (steps a–e of §4.4 as coded):
pseudo-URL test, 12-character text minimum, resolve + canonicalize,
same-domain test, allow-list, then date inference on the anchor + parent
context. -/
def anchorCandidate (src : SourceCfg) (o : UrlOracle) (home : String)
    (a : Anchor) : Option Candidate :=
  let href := safe_text a.href
  if href = "" then none
  else if badHref href then none
  else
    let text := norm_space a.text
    if text.length < 12 then none
    else
      let abs_url := strip_utm (o.urljoin home href)
      if ¬ is_same_domain o abs_url home then none
      else if ¬ allowlist_filter src abs_url then none
      else
        let ctx := norm_space (safe_text a.text ++ " " ++
          safe_text (a.parentText.getD ""))
        some { title := text, url := abs_url, pub := o.guess_date ctx,
               summary := "" }

/-- The intra-source dedupe key `(url, norm_key(title))` (the URL is already
canonical at this point, so no second `strip_utm`). -/
def candKey (c : Candidate) : String × String := (c.url, norm_key c.title)

/-- The `Item` literal built in the `fetch_html_list` candidate loop. -/
def mkHtmlItem (src : SourceCfg) (now : Int) (c : Candidate) : Item :=
  { source_id := src.source_id
    source_name := src.name
    title := c.title
    url := c.url
    published := c.pub.map isoStr
    summary := c.summary
    geo := src.geo_default
    brief_level := src.brief_level
    tags := src.tags_default
    score := scoreOf c.pub now src.geo_default src.boost src.impact_bias }

/-- Warning emitted for a missing `urls.home`. -/
def missingHomeMsg (src : SourceCfg) : String :=
  "[WARN] " ++ src.source_id ++ ": missing urls.home for html_list"

/-- Warning emitted when the whole pipeline produced zero items. -/
def emptyExtractionMsg (src : SourceCfg) : String :=
  "[WARN] " ++ src.source_id ++
    ": html_list extracted 0 items (page structure may need explicit selectors)"

/-- Embeds `fetch_html_list`. -/
def fetch_html_list (src : SourceCfg) (limit : Nat) (now : Int)
    (o : UrlOracle) (world : HtmlFetch) : List Item × List String :=
  match src.urls_home with
  | none => ([], [missingHomeMsg src])
  | some home =>
    if home = "" then ([], [missingHomeMsg src])
    else
      match world with
      | .failed e => ([], [fetchFailedMsg src e])
      | .ok page =>
        let candidates := page.anchors.filterMap (anchorCandidate src o home)
        let deduped := firstWins candKey [] candidates
        let items := (sort_items (deduped.map (mkHtmlItem src now))).take limit
        (items, if items = [] then [emptyExtractionMsg src] else [])

/-! ### Orchestrator routing (`main`'s per-source dispatch) -/

/-- Warning emitted for an unsupported `fetch_method`. -/
def unsupportedMsg (src : SourceCfg) : String :=
  "[WARN] " ++ src.source_id ++ ": fetch_method=\x27" ++ src.fetch_method ++
    "\x27 not supported (skipped)"

/-- Embeds the strategy dispatch in `main`'s source loop. -/
def route (src : SourceCfg) (limit : Nat) (now : Int) (wR : FetchOutcome)
    (o : UrlOracle) (wH : HtmlFetch) : List Item × List String :=
  if src.fetch_method = "rss" then fetch_rss src limit now wR
  else if src.fetch_method = "html_list" then fetch_html_list src limit now o wH
  else ([], [unsupportedMsg src])

/-! ### General lemmas about the embedded operations -/

theorem strAppend_data (a b : String) : (a ++ b).data = a.data ++ b.data := rfl

theorem mem_firstWins {α κ : Type} [DecidableEq κ] (key : α → κ) :
    ∀ (seen : List κ) (l : List α) (x : α), x ∈ firstWins key seen l → x ∈ l := by
  intro seen l
  induction l generalizing seen with
  | nil => intro x h; simp [firstWins] at h
  | cons y rest ih =>
    intro x h
    rw [firstWins] at h
    split at h
    · exact List.mem_cons_of_mem _ (ih _ _ h)
    · rcases List.mem_cons.1 h with h' | h'
      · exact h' ▸ List.mem_cons_self _ _
      · exact List.mem_cons_of_mem _ (ih _ _ h')

theorem anchorCandidate_title_long {src : SourceCfg} {o : UrlOracle}
    {home : String} {a : Anchor} {c : Candidate}
    (h : anchorCandidate src o home a = some c) : 12 ≤ c.title.length := by
  simp only [anchorCandidate] at h
  split at h
  · cases h
  · split at h
    · cases h
    · split at h
      · cases h
      · split at h
        · cases h
        · split at h
          · cases h
          · injection h with h2
            subst h2
            dsimp only
            omega

/-- Any item the heuristic strategy outputs arises from a surviving
candidate of the anchor pipeline. -/
theorem fetch_html_list_mem {src : SourceCfg} {limit : Nat} {now : Int}
    {o : UrlOracle} {w : HtmlFetch} {it : Item}
    (hit : it ∈ (fetch_html_list src limit now o w).1) :
    ∃ home, (src.urls_home = some home ∧ home ≠ "") ∧
      ∃ page, w = .ok page ∧ ∃ a ∈ page.anchors, ∃ c,
        anchorCandidate src o home a = some c ∧ it = mkHtmlItem src now c := by
  rcases hsrc : src.urls_home with _ | home
  · rw [fetch_html_list.eq_def, hsrc] at hit; simp at hit
  · rw [fetch_html_list.eq_def, hsrc] at hit
    dsimp only at hit
    by_cases hh : home = ""
    · simp [hh] at hit
    · rw [if_neg hh] at hit
      cases w with
      | failed e => simp at hit
      | ok page =>
        dsimp only at hit
        have h1 : it ∈ sort_items ((firstWins candKey []
            (page.anchors.filterMap (anchorCandidate src o home))).map
            (mkHtmlItem src now)) := List.mem_of_mem_take hit
        rw [sort_items, List.mem_insertionSort] at h1
        rw [List.mem_map] at h1
        obtain ⟨c, hc, hcit⟩ := h1
        have hc2 := mem_firstWins candKey _ _ _ hc
        rw [List.mem_filterMap] at hc2
        obtain ⟨a, ha, hac⟩ := hc2
        exact ⟨home, ⟨rfl, hh⟩, page, rfl, a, ha, c, hac, hcit.symm⟩

/-- Any item the feed strategy outputs arises from a fetched entry. -/
theorem fetch_rss_mem {src : SourceCfg} {limit : Nat} {now : Int}
    {w : FetchOutcome} {it : Item}
    (hit : it ∈ (fetch_rss src limit now w).1) :
    ∃ u, (src.urls_feed = some u ∧ u ≠ "") ∧
      ∃ feed, w = .ok feed ∧ ∃ entry ∈ feed.entries.take limit,
        rssEntryItem src now entry = some it := by
  rcases hsrc : src.urls_feed with _ | u
  · rw [fetch_rss.eq_def, hsrc] at hit; simp at hit
  · rw [fetch_rss.eq_def, hsrc] at hit
    dsimp only at hit
    by_cases hu : u = ""
    · simp [hu] at hit
    · rw [if_neg hu] at hit
      cases w with
      | failed e => simp at hit
      | ok feed =>
        dsimp only at hit
        rw [List.mem_filterMap] at hit
        obtain ⟨entry, he, hei⟩ := hit
        exact ⟨u, ⟨rfl, hu⟩, feed, rfl, entry, he, hei⟩

theorem rssEntryItem_eq {src : SourceCfg} {now : Int} {entry : Entry} {it : Item}
    (h : rssEntryItem src now entry = some it) :
    it = mkRssItem src now (norm_space (safe_text entry.title))
      (strip_utm (safe_text entry.link)) entry.pub
      (norm_space (safe_text entry.summary)) ∧
    norm_space (safe_text entry.title) ≠ "" ∧
    strip_utm (safe_text entry.link) ≠ "" := by
  simp only [rssEntryItem] at h
  split at h
  · cases h
  · rename_i hcond
    push_neg at hcond
    injection h with h2
    exact ⟨h2.symm, hcond.1, hcond.2⟩

/-! ### Claim theorems -/

/-- C1: every item produced by either extraction strategy has
`score = recency term + geography term + boost + impact-bias term`, where the
recency term is `time_score` of the item's (oracled) publish date against
`now`, the geography term is the fixed table with default 1, the boost is
copied verbatim and the impact-bias term is +1, -1 or 0; no clamping is applied
(the last conjunct exhibits a negative total), and an item published today
with `geo=BA`, `boost=1`, `impact_bias=none` scores exactly 6. -/
theorem C1_score_formula :
    (∀ (src : SourceCfg) (limit : Nat) (now : Int) (w : FetchOutcome),
      ∀ it ∈ (fetch_rss src limit now w).1,
        it.geo = src.geo_default ∧
        ∃ d : Option Int, it.published = d.map isoStr ∧
          it.score = time_score d now + GEO_WEIGHT it.geo + src.boost +
            impact_bias_bonus src.impact_bias) ∧
    (∀ (src : SourceCfg) (limit : Nat) (now : Int) (o : UrlOracle) (w : HtmlFetch),
      ∀ it ∈ (fetch_html_list src limit now o w).1,
        it.geo = src.geo_default ∧
        ∃ d : Option Int, it.published = d.map isoStr ∧
          it.score = time_score d now + GEO_WEIGHT it.geo + src.boost +
            impact_bias_bonus src.impact_bias) ∧
    (∀ today : Int, scoreOf (some today) today "BA" 1 "none" = 6) ∧
    (∀ today : Int, scoreOf none today "SR" (-3) "low_impact" = -3) := by
  refine ⟨?_, ?_, ?_, ?_⟩
  · intro src limit now w it hit
    obtain ⟨u, -, feed, -, entry, -, hsome⟩ := fetch_rss_mem hit
    obtain ⟨rfl, -, -⟩ := rssEntryItem_eq hsome
    exact ⟨rfl, entry.pub, rfl, rfl⟩
  · intro src limit now o w it hit
    obtain ⟨home, -, page, -, a, -, c, -, rfl⟩ := fetch_html_list_mem hit
    exact ⟨rfl, c.pub, rfl, rfl⟩
  · intro today
    simp [scoreOf, time_score, GEO_WEIGHT, impact_bias_bonus]
  · intro today
    simp [scoreOf, time_score, GEO_WEIGHT, impact_bias_bonus]

/-- Feed-source fixture for the witnesses. -/
def srcW1 : SourceCfg :=
  { source_id := "S1", name := "N1", urls_feed := some "http://f/rss",
    urls_home := none, fetch_method := "rss", geo_default := "BA",
    brief_level := "full", boost := 1, impact_bias := "none",
    tags_default := ["doprava"] }

/-- Feed world fixture: one clean entry. -/
def wW1 : FetchOutcome :=
  .ok { bozo := false, bozo_exception := none,
        entries := [{ title := "Hello world", link := "http://f/a?utm_x=1",
                      pub := none, summary := "s" }] }

/-- The item `fetch_rss` produces from the fixture. -/
def itW1 : Item := mkRssItem srcW1 0 "Hello world" "http://f/a" none "s"

theorem C1_score_formula_witness :
    itW1 ∈ (fetch_rss srcW1 7 0 wW1).1 ∧
    (itW1.geo = srcW1.geo_default ∧
      ∃ d : Option Int, itW1.published = d.map isoStr ∧
        itW1.score = time_score d 0 + GEO_WEIGHT itW1.geo + srcW1.boost +
          impact_bias_bonus srcW1.impact_bias) :=
  ⟨by decide, C1_score_formula.1 srcW1 7 0 wW1 itW1 (by decide)⟩

/-- C4: a feed source with a missing URL, or whose fetch raises, yields an
empty item list plus exactly the one warning identifying the source and the
failure; a bozo (malformed but recovered) document yields exactly one
additional warning while the recovered entries are still processed; with a
clean document (or a bozo flag without an exception object) no warning is
emitted.  The embedding is total, so no case raises to the caller. -/
theorem C4_feed_errors :
    (∀ (src : SourceCfg) (limit : Nat) (now : Int) (w : FetchOutcome),
      (src.urls_feed = none ∨ src.urls_feed = some "") →
      fetch_rss src limit now w = ([], [missingFeedMsg src])) ∧
    (∀ (src : SourceCfg) (limit : Nat) (now : Int) (u e : String),
      src.urls_feed = some u → u ≠ "" →
      fetch_rss src limit now (.failed e) = ([], [fetchFailedMsg src e])) ∧
    (∀ (src : SourceCfg) (limit : Nat) (now : Int) (u exc : String)
        (entries : List Entry),
      src.urls_feed = some u → u ≠ "" →
      fetch_rss src limit now (.ok ⟨true, some exc, entries⟩) =
        ((entries.take limit).filterMap (rssEntryItem src now),
          [bozoMsg src exc])) ∧
    (∀ (src : SourceCfg) (limit : Nat) (now : Int) (u : String)
        (x : Option String) (entries : List Entry),
      src.urls_feed = some u → u ≠ "" →
      fetch_rss src limit now (.ok ⟨false, x, entries⟩) =
        ((entries.take limit).filterMap (rssEntryItem src now), []) ∧
      fetch_rss src limit now (.ok ⟨true, none, entries⟩) =
        ((entries.take limit).filterMap (rssEntryItem src now), [])) := by
  refine ⟨?_, ?_, ?_, ?_⟩
  · intro src limit now w h
    rcases h with h | h <;> simp [fetch_rss.eq_def, h]
  · intro src limit now u e h hu
    simp [fetch_rss.eq_def, h, hu]
  · intro src limit now u exc entries h hu
    simp [fetch_rss.eq_def, h, hu]
  · intro src limit now u x entries h hu
    constructor <;> simp [fetch_rss.eq_def, h, hu]

/-- Feed-source fixture with no feed URL. -/
def srcW2 : SourceCfg :=
  { source_id := "S3", name := "N3", urls_feed := none, urls_home := none,
    fetch_method := "rss", geo_default := "SR", brief_level := "", boost := 0,
    impact_bias := "", tags_default := [] }

theorem C4_feed_errors_witness :
    fetch_rss srcW2 3 0 (.failed "boom") = ([], [missingFeedMsg srcW2]) ∧
    fetch_rss srcW1 3 0 (.failed "boom") = ([], [fetchFailedMsg srcW1 "boom"]) ∧
    fetch_rss srcW1 3 0 (.ok ⟨true, some "bz", []⟩) = ([], [bozoMsg srcW1 "bz"]) :=
  ⟨C4_feed_errors.1 srcW2 3 0 _ (Or.inl rfl),
   C4_feed_errors.2.1 srcW1 3 0 "http://f/rss" "boom" rfl (by decide),
   by simpa using C4_feed_errors.2.2.1 srcW1 3 0 "http://f/rss" "bz" [] rfl (by decide)⟩

/-- C5: the orchestrator's dispatch routes `rss` sources exactly to the feed
strategy, `html_list` sources exactly to the heuristic listing strategy, and
any other `fetch_method` value produces zero items plus exactly one warning
(the embedding is total, so nothing propagates to the orchestrator). -/
theorem C5_routing :
    (∀ (src : SourceCfg) (limit : Nat) (now : Int) (wR : FetchOutcome)
        (o : UrlOracle) (wH : HtmlFetch),
      src.fetch_method ≠ "rss" → src.fetch_method ≠ "html_list" →
      route src limit now wR o wH = ([], [unsupportedMsg src])) ∧
    (∀ src limit now wR o wH, src.fetch_method = "rss" →
      route src limit now wR o wH = fetch_rss src limit now wR) ∧
    (∀ src limit now wR o wH, src.fetch_method = "html_list" →
      route src limit now wR o wH = fetch_html_list src limit now o wH) := by
  refine ⟨?_, ?_, ?_⟩
  · intro src limit now wR o wH h1 h2
    simp [route, h1, h2]
  · intro src limit now wR o wH h
    simp [route, h]
  · intro src limit now wR o wH h
    simp [route, h]

/-- Source fixture with an unsupported fetch method. -/
def srcW3 : SourceCfg :=
  { source_id := "S4", name := "N4", urls_feed := none, urls_home := none,
    fetch_method := "ftp", geo_default := "SR", brief_level := "", boost := 0,
    impact_bias := "", tags_default := [] }

/-- URL-capability fixture: `urljoin` returning the (absolute-shaped) href
unchanged and an empty netloc, as `urllib` does on the inputs used here;
no date is ever inferred. -/
def oH : UrlOracle :=
  { urljoin := fun _ href => href, netloc := fun _ => "",
    guess_date := fun _ => none }

theorem C5_routing_witness :
    route srcW3 1 0 (.failed "x") oH (.failed "y") = ([], [unsupportedMsg srcW3]) ∧
    route srcW1 1 0 wW1 oH (.failed "y") = fetch_rss srcW1 1 0 wW1 :=
  ⟨C5_routing.1 srcW3 1 0 _ _ _ (by decide) (by decide),
   C5_routing.2.1 srcW1 1 0 _ _ _ rfl⟩

/-- C6: whenever the heuristic listing strategy returns an empty item list it
returns exactly one warning built around the source id — the missing-home
warning, the fetch-failure warning, or the empty-extraction warning — and the
empty-extraction wording differs from both failure wordings. -/
theorem C6_html_empty_warning :
    (∀ (src : SourceCfg) (limit : Nat) (now : Int) (o : UrlOracle) (w : HtmlFetch),
      (fetch_html_list src limit now o w).1 = [] →
      (fetch_html_list src limit now o w).2 = [missingHomeMsg src] ∨
      (∃ e, (fetch_html_list src limit now o w).2 = [fetchFailedMsg src e]) ∨
      (fetch_html_list src limit now o w).2 = [emptyExtractionMsg src]) ∧
    (∀ (src : SourceCfg) (e : String),
      emptyExtractionMsg src ≠ fetchFailedMsg src e) ∧
    (∀ src : SourceCfg, emptyExtractionMsg src ≠ missingHomeMsg src) := by
  refine ⟨?_, ?_, ?_⟩
  · intro src limit now o w h
    rcases hsrc : src.urls_home with _ | home
    · rw [fetch_html_list.eq_def, hsrc]
      left; rfl
    · rw [fetch_html_list.eq_def, hsrc] at h ⊢
      dsimp only at h ⊢
      by_cases hh : home = ""
      · rw [if_pos hh]
        left; rfl
      · rw [if_neg hh] at h ⊢
        cases w with
        | failed e => right; left; exact ⟨e, rfl⟩
        | ok page =>
          dsimp only at h ⊢
          right; right
          rw [if_pos h]
  · intro src e h
    have h2 : (emptyExtractionMsg src).data = (fetchFailedMsg src e).data :=
      congrArg String.data h
    simp only [emptyExtractionMsg, fetchFailedMsg, strAppend_data,
      List.append_assoc] at h2
    have h3 := List.append_cancel_left h2
    have h4 := List.append_cancel_left h3
    have h5 : ((": fetch failed: ").data ++ e.data)[2]? = some 'f' := by
      rw [List.getElem?_append_left (by decide)]
      decide
    rw [← h4] at h5
    have h6 : ((": html_list extracted 0 items (page structure may need explicit selectors)").data)[2]? = some 'h' := by decide
    rw [h6] at h5
    exact absurd h5 (by decide)
  · intro src h
    have h2 : (emptyExtractionMsg src).data = (missingHomeMsg src).data :=
      congrArg String.data h
    simp only [emptyExtractionMsg, missingHomeMsg, strAppend_data,
      List.append_assoc] at h2
    have h3 := List.append_cancel_left h2
    have h4 := List.append_cancel_left h3
    exact absurd h4 (by decide)

/-- Listing-source fixture whose home URL has no scheme or host. -/
def srcH : SourceCfg :=
  { source_id := "S2", name := "N2", urls_feed := none,
    urls_home := some "?xyz", fetch_method := "html_list", geo_default := "BA",
    brief_level := "", boost := 0, impact_bias := "", tags_default := [] }

theorem C6_html_empty_warning_witness :
    (fetch_html_list srcH 5 0 oH (.ok ⟨[]⟩)).1 = [] ∧
    ((fetch_html_list srcH 5 0 oH (.ok ⟨[]⟩)).2 = [missingHomeMsg srcH] ∨
     (∃ e, (fetch_html_list srcH 5 0 oH (.ok ⟨[]⟩)).2 = [fetchFailedMsg srcH e]) ∨
     (fetch_html_list srcH 5 0 oH (.ok ⟨[]⟩)).2 = [emptyExtractionMsg srcH]) :=
  ⟨by decide, C6_html_empty_warning.1 srcH 5 0 oH _ (by decide)⟩

/-- C7 as stated is refuted on the listing strategy: with the (schemeless)
home URL `"?xyz"` — for which `urljoin("?xyz", "?utm_aa=bb") = "?utm_aa=bb"`
and both netlocs are `""`, exactly as `urllib` computes them — an anchor
`href="?utm_aa=bb"` with a 14-character text survives every filter, and
canonicalization erases the whole URL, so the strategy emits an item whose
`url` is the empty string. -/
theorem C7_counterexample :
    ∃ it ∈ (fetch_html_list srcH 5 0 oH
      (.ok ⟨[{ href := "?utm_aa=bb", text := "abcdefghijklmn",
               parentText := none }]⟩)).1, it.url = "" := by decide

/-- C7 amended: every item surviving the feed strategy has a non-empty title
and a non-empty URL, and its warnings are independent of the entry list
(empty-title/url entries are dropped silently); every item surviving the
heuristic listing strategy has a non-empty title, but its URL is not
re-validated after canonicalization and can be empty (see the
counterexample). -/
theorem C7_amended :
    (∀ (src : SourceCfg) (limit : Nat) (now : Int) (w : FetchOutcome),
      ∀ it ∈ (fetch_rss src limit now w).1, it.title ≠ "" ∧ it.url ≠ "") ∧
    (∀ (src : SourceCfg) (limit : Nat) (now : Int) (o : UrlOracle) (w : HtmlFetch),
      ∀ it ∈ (fetch_html_list src limit now o w).1, it.title ≠ "") ∧
    (∀ (src : SourceCfg) (limit : Nat) (now : Int) (b : Bool) (x : Option String)
        (entries entries' : List Entry),
      (fetch_rss src limit now (.ok ⟨b, x, entries⟩)).2 =
        (fetch_rss src limit now (.ok ⟨b, x, entries'⟩)).2) := by
  refine ⟨?_, ?_, ?_⟩
  · intro src limit now w it hit
    obtain ⟨u, -, feed, -, entry, -, hsome⟩ := fetch_rss_mem hit
    obtain ⟨rfl, ht, hl⟩ := rssEntryItem_eq hsome
    exact ⟨ht, hl⟩
  · intro src limit now o w it hit
    obtain ⟨home, -, page, -, a, -, c, hc, rfl⟩ := fetch_html_list_mem hit
    have hlen := anchorCandidate_title_long hc
    intro h0
    have h1 : c.title = "" := h0
    rw [h1] at hlen
    exact absurd hlen (by decide)
  · intro src limit now b x entries entries'
    rcases hsrc : src.urls_feed with _ | u
    · simp [fetch_rss.eq_def, hsrc]
    · by_cases hu : u = "" <;> simp [fetch_rss.eq_def, hsrc, hu]

theorem C7_amended_witness :
    itW1 ∈ (fetch_rss srcW1 7 0 wW1).1 ∧ (itW1.title ≠ "" ∧ itW1.url ≠ "") :=
  ⟨by decide, C7_amended.1 srcW1 7 0 wW1 itW1 (by decide)⟩

/-! ### Lowercasing commutes with whitespace normalization -/

theorem isPySpace_lowChar (c : Char) : isPySpace (lowChar c) = isPySpace c := by
  unfold lowChar
  split <;> rfl

theorem lowChar_space : lowChar ' ' = ' ' := rfl

theorem map_lowChar_pyStripP (l : List Char) :
    (pyStripP isPySpace l).map lowChar = pyStripP isPySpace (l.map lowChar) := by
  unfold pyStripP
  have hfun : (isPySpace ∘ lowChar) = isPySpace := funext isPySpace_lowChar
  rw [List.dropWhile_map, hfun, ← List.map_reverse, List.dropWhile_map, hfun,
    ← List.map_reverse]

theorem map_lowChar_collapseRunsGo (b : Bool) (l : List Char) :
    (collapseRunsGo isPySpace ' ' b l).map lowChar =
      collapseRunsGo isPySpace ' ' b (l.map lowChar) := by
  induction l generalizing b with
  | nil => rfl
  | cons c cs ih =>
    simp only [List.map_cons, collapseRunsGo, isPySpace_lowChar]
    by_cases hc : isPySpace c
    · rw [if_pos hc, if_pos hc]
      cases b with
      | true => simpa using ih true
      | false => simpa [lowChar_space] using ih true
    · rw [if_neg hc, if_neg hc]
      simpa using ih false

theorem map_lowChar_norm_space (s : String) :
    (norm_space s).data.map lowChar =
      pyStripP isPySpace (collapseRuns isPySpace ' ' (s.data.map lowChar)) := by
  show (pyStripP isPySpace (collapseRuns isPySpace ' ' s.data)).map lowChar = _
  rw [map_lowChar_pyStripP, collapseRuns, collapseRuns,
    map_lowChar_collapseRunsGo]

/-- Titles equal after `str.lower()` get the same `norm_key`. -/
theorem norm_key_eq_of_lower_eq {s t : String} (h : lowerStr s = lowerStr t) :
    norm_key s = norm_key t := by
  have hd : s.data.map lowChar = t.data.map lowChar := congrArg String.data h
  unfold norm_key
  rw [map_lowChar_norm_space, map_lowChar_norm_space, hd]

/-! ### Dedupe refines the spec's first-occurrence-wins description -/

theorem firstWins_eq_dedupeSpec :
    ∀ (l : List Item) (seen : List (String × String)),
      firstWins itemKey seen l =
        dedupeSpec (l.filter (fun y => itemKey y ∉ seen)) := by
  intro l
  induction l with
  | nil => intro seen; simp [firstWins, dedupeSpec]
  | cons x rest ih =>
    intro seen
    rw [firstWins, List.filter_cons]
    by_cases hx : itemKey x ∈ seen
    · rw [if_pos hx, if_neg (by simpa using hx)]
      exact ih seen
    · rw [if_neg hx, if_pos (by simpa using hx), dedupeSpec]
      congr 1
      rw [ih (itemKey x :: seen), List.filter_filter]
      congr 1
      apply List.filter_congr
      intro y _
      simp [List.mem_cons, not_or, and_comm]

/-- C2: the cross-source dedupe keeps, per key `(strip_utm(url),
norm_key(title))`, exactly the first item in input order and drops every
later item with that key (it equals the spec-worded `dedupeSpec`); in
particular two items with identical canonical URL and case-insensitively
identical title collapse to the first one, whatever their sources. -/
theorem C2_dedupe_first_wins :
    (∀ items : List Item, dedupe items = dedupeSpec items) ∧
    (∀ a b : Item, strip_utm a.url = strip_utm b.url →
      lowerStr a.title = lowerStr b.title → dedupe [a, b] = [a]) := by
  constructor
  · intro items
    have h := firstWins_eq_dedupeSpec items []
    simpa [dedupe] using h
  · intro a b hu ht
    have hk : itemKey b = itemKey a := by
      unfold itemKey
      rw [hu, norm_key_eq_of_lower_eq ht]
    simp [dedupe, firstWins, hk]

/-- Duplicate-pair fixture: same canonical URL, case-variant title. -/
def itD1 : Item :=
  { source_id := "A", source_name := "SA", title := "Hello World",
    url := "http://x/p?utm_a=1", published := none, summary := "", geo := "BA",
    brief_level := "", tags := [], score := 3 }

/-- Second element of the duplicate pair, from another source. -/
def itD2 : Item :=
  { source_id := "B", source_name := "SB", title := "HELLO world",
    url := "http://x/p", published := some "2026-01-01", summary := "",
    geo := "SR", brief_level := "", tags := [], score := 1 }

theorem C2_dedupe_first_wins_witness :
    strip_utm itD1.url = strip_utm itD2.url ∧
    lowerStr itD1.title = lowerStr itD2.title ∧
    dedupe [itD1, itD2] = [itD1] :=
  ⟨by decide, by decide, C2_dedupe_first_wins.2 itD1 itD2 (by decide) (by decide)⟩

/-! ### The sort-key order -/

theorem lexLt_irrefl : ∀ l : List Char, lexLt l l = false := by
  intro l
  induction l with
  | nil => rfl
  | cons c cs ih => simp [lexLt, lt_irrefl, ih]

theorem lexLt_trans : ∀ {a b c : List Char},
    lexLt a b = true → lexLt b c = true → lexLt a c = true := by
  intro a
  induction a with
  | nil =>
    intro b c hab hbc
    cases b with
    | nil => simp [lexLt] at hab
    | cons y ys =>
      cases c with
      | nil => simp [lexLt] at hbc
      | cons z zs => rfl
  | cons x xs ih =>
    intro b c hab hbc
    cases b with
    | nil => simp [lexLt] at hab
    | cons y ys =>
      cases c with
      | nil => simp [lexLt] at hbc
      | cons z zs =>
        rw [lexLt] at hab hbc ⊢
        by_cases h1 : x < y
        · by_cases h2 : y < z
          · rw [if_pos (lt_trans h1 h2)]
          · rw [if_neg h2] at hbc
            by_cases h3 : z < y
            · rw [if_pos h3] at hbc; exact absurd hbc (by simp)
            · have hyz : y = z := le_antisymm (not_lt.1 h3) (not_lt.1 h2)
              rw [if_pos (hyz ▸ h1)]
        · rw [if_neg h1] at hab
          by_cases h1' : y < x
          · rw [if_pos h1'] at hab; exact absurd hab (by simp)
          · have hxy : x = y := le_antisymm (not_lt.1 h1') (not_lt.1 h1)
            subst hxy
            rw [if_neg h1] at hab
            by_cases h2 : x < z
            · rw [if_pos h2]
            · rw [if_neg h2] at hbc ⊢
              by_cases h3 : z < x
              · rw [if_pos h3] at hbc; exact absurd hbc (by simp)
              · rw [if_neg h3] at hbc ⊢
                exact ih hab hbc

theorem lexLt_trichotomy : ∀ a b : List Char,
    lexLt a b = true ∨ a = b ∨ lexLt b a = true := by
  intro a
  induction a with
  | nil =>
    intro b
    cases b with
    | nil => exact Or.inr (Or.inl rfl)
    | cons d ds => exact Or.inl rfl
  | cons c cs ih =>
    intro b
    cases b with
    | nil => exact Or.inr (Or.inr rfl)
    | cons d ds =>
      rcases lt_trichotomy c d with h | h | h
      · exact Or.inl (by rw [lexLt, if_pos h])
      · subst h
        rcases ih ds with h2 | h2 | h2
        · exact Or.inl (by rw [lexLt, if_neg (lt_irrefl c), if_neg (lt_irrefl c)]; exact h2)
        · exact Or.inr (Or.inl (by rw [h2]))
        · exact Or.inr (Or.inr (by rw [lexLt, if_neg (lt_irrefl c), if_neg (lt_irrefl c)]; exact h2))
      · exact Or.inr (Or.inr (by rw [lexLt, if_pos h]))

theorem strLt_irrefl (a : String) : ¬ strLt a a := by
  simp [strLt, lexLt_irrefl]

theorem strLt_trans {a b c : String} (h1 : strLt a b) (h2 : strLt b c) :
    strLt a c := lexLt_trans h1 h2

theorem strLt_asymm {a b : String} (h : strLt a b) : ¬ strLt b a :=
  fun h2 => strLt_irrefl a (strLt_trans h h2)

theorem str_trichotomy (a b : String) : strLt a b ∨ a = b ∨ strLt b a := by
  rcases lexLt_trichotomy a.data b.data with h | h | h
  · exact Or.inl h
  · exact Or.inr (Or.inl (String.toList_inj.1 h))
  · exact Or.inr (Or.inr h)

theorem strLe_total (a b : String) : strLe a b ∨ strLe b a := by
  rcases str_trichotomy a b with h | h | h
  · exact Or.inl (Or.inl h)
  · exact Or.inl (Or.inr h)
  · exact Or.inr (Or.inl h)

theorem strLe_trans {a b c : String} (h1 : strLe a b) (h2 : strLe b c) :
    strLe a c := by
  rcases h1 with h1 | rfl
  · rcases h2 with h2 | rfl
    · exact Or.inl (strLt_trans h1 h2)
    · exact Or.inl h1
  · exact h2

theorem strLe_antisymm {a b : String} (h1 : strLe a b) (h2 : strLe b a) :
    a = b := by
  rcases h1 with h1 | rfl
  · rcases h2 with h2 | rfl
    · exact absurd h2 (strLt_asymm h1)
    · rfl
  · rfl

theorem keyLe_refl (x : Int × String × String) : keyLe x x :=
  Or.inr ⟨rfl, Or.inr ⟨rfl, Or.inr rfl⟩⟩

theorem keyLe_total (x y : Int × String × String) : keyLe x y ∨ keyLe y x := by
  unfold keyLe
  rcases lt_trichotomy x.1 y.1 with h | h | h
  · exact Or.inl (Or.inl h)
  · rcases str_trichotomy x.2.1 y.2.1 with h2 | h2 | h2
    · exact Or.inl (Or.inr ⟨h, Or.inl h2⟩)
    · rcases strLe_total x.2.2 y.2.2 with h3 | h3
      · exact Or.inl (Or.inr ⟨h, Or.inr ⟨h2, h3⟩⟩)
      · exact Or.inr (Or.inr ⟨h.symm, Or.inr ⟨h2.symm, h3⟩⟩)
    · exact Or.inr (Or.inr ⟨h.symm, Or.inl h2⟩)
  · exact Or.inr (Or.inl h)

theorem keyLe_trans {x y z : Int × String × String}
    (h1 : keyLe x y) (h2 : keyLe y z) : keyLe x z := by
  unfold keyLe at h1 h2 ⊢
  rcases h1 with h1 | ⟨h1e, h1r⟩
  · rcases h2 with h2 | ⟨h2e, -⟩
    · exact Or.inl (lt_trans h1 h2)
    · exact Or.inl (h2e ▸ h1)
  · rcases h2 with h2 | ⟨h2e, h2r⟩
    · exact Or.inl (h1e ▸ h2)
    · refine Or.inr ⟨h1e.trans h2e, ?_⟩
      rcases h1r with h1r | ⟨h1re, h1rr⟩
      · rcases h2r with h2r | ⟨h2re, -⟩
        · exact Or.inl (strLt_trans h1r h2r)
        · exact Or.inl (h2re ▸ h1r)
      · rcases h2r with h2r | ⟨h2re, h2rr⟩
        · exact Or.inl (h1re ▸ h2r)
        · exact Or.inr ⟨h1re.trans h2re, strLe_trans h1rr h2rr⟩

theorem keyLe_antisymm {x y : Int × String × String}
    (h1 : keyLe x y) (h2 : keyLe y x) : x = y := by
  unfold keyLe at h1 h2
  rcases h1 with h1 | ⟨h1e, h1r⟩
  · rcases h2 with h2 | ⟨h2e, -⟩
    · exact absurd h2 (lt_asymm h1)
    · exact absurd h1 (h2e ▸ lt_irrefl _)
  · rcases h2 with h2 | ⟨-, h2r⟩
    · exact absurd h2 (h1e ▸ lt_irrefl _)
    · rcases h1r with h1r | ⟨h1re, h1rr⟩
      · rcases h2r with h2r | ⟨h2re, -⟩
        · exact absurd h2r (strLt_asymm h1r)
        · exact absurd h1r (h2re ▸ strLt_irrefl _)
      · rcases h2r with h2r | ⟨-, h2rr⟩
        · exact absurd h2r (h1re ▸ strLt_irrefl _)
        · have : x.2.2 = y.2.2 := strLe_antisymm h1rr h2rr
          exact Prod.ext h1e (Prod.ext h1re this)

instance : IsTotal Item kle := ⟨fun _ _ => keyLe_total _ _⟩

instance : IsTrans Item kle := ⟨fun _ _ _ => keyLe_trans⟩

theorem sort_items_sorted (l : List Item) : List.Sorted kle (sort_items l) :=
  List.sorted_insertionSort kle l

theorem sort_items_perm (l : List Item) : (sort_items l).Perm l :=
  List.perm_insertionSort kle l

/-- Two sorted lists that are permutations of one another are equal provided
distinct elements never share a sort key. -/
theorem sorted_perm_eq :
    ∀ {l₁ l₂ : List Item}, l₁.Perm l₂ → List.Sorted kle l₁ →
      List.Sorted kle l₂ →
      (∀ a ∈ l₁, ∀ b ∈ l₁, sortKey a = sortKey b → a = b) → l₁ = l₂ := by
  intro l₁
  induction l₁ with
  | nil =>
    intro l₂ hp _ _ _
    exact (hp.symm.eq_nil).symm
  | cons a t ih =>
    intro l₂ hp hs₁ hs₂ hinj
    cases l₂ with
    | nil => simpa using hp.eq_nil
    | cons b t₂ =>
      have hbmem : b ∈ a :: t := hp.mem_iff.2 (List.mem_cons_self b t₂)
      have hamem : a ∈ b :: t₂ := hp.mem_iff.1 (List.mem_cons_self a t)
      have h1 : kle a b := by
        rcases List.mem_cons.1 hbmem with h | h
        · exact h ▸ keyLe_refl _
        · exact List.rel_of_sorted_cons hs₁ b h
      have h2 : kle b a := by
        rcases List.mem_cons.1 hamem with h | h
        · exact h ▸ keyLe_refl _
        · exact List.rel_of_sorted_cons hs₂ a h
      have hab : a = b :=
        hinj a (List.mem_cons_self a t) b hbmem (keyLe_antisymm h1 h2)
      subst hab
      have ht : t = t₂ :=
        ih hp.cons_inv hs₁.of_cons hs₂.of_cons
          (fun x hx y hy hk =>
            hinj x (List.mem_cons_of_mem _ hx) y (List.mem_cons_of_mem _ hy) hk)
      rw [ht]

/-- Equal-full-key fixture: distinct items whose sort keys coincide. -/
def itT1 : Item :=
  { source_id := "A", source_name := "SA", title := "AB", url := "u1",
    published := none, summary := "", geo := "BA", brief_level := "",
    tags := [], score := 0 }

/-- Second fixture item: same sort key as `itT1`, different item. -/
def itT2 : Item :=
  { source_id := "B", source_name := "SB", title := "Ab", url := "u2",
    published := none, summary := "", geo := "BA", brief_level := "",
    tags := [], score := 0 }

/-- C3 as stated is refuted: `itT1 ≠ itT2` but their sort keys agree
(`-score`, empty published and lowercased titles all coincide), and the
stable sort returns the two permutations of `[itT1, itT2]` in their
respective input orders, so the output does depend on insertion order. -/
theorem C3_counterexample :
    List.Perm [itT1, itT2] [itT2, itT1] ∧
    sort_items [itT1, itT2] ≠ sort_items [itT2, itT1] :=
  ⟨List.Perm.swap itT2 itT1 [], by decide⟩

/-- C3 amended: the comparison is total; the output of `sort_items` is always
sorted by `(−score, published-or-empty, lowercased title)` — in particular,
of two items with equal score, one with lexicographically smaller
`(published-or-empty, lowercased title)` never comes later — and the output
is the same for every permutation of the input provided distinct items have
distinct full sort keys (full-key ties keep input order by stability, so for
them the output does depend on insertion order, see the counterexample). -/
theorem C3_amended :
    (∀ a b : Item, kle a b ∨ kle b a) ∧
    (∀ (xs : List Item) (i j : Fin (sort_items xs).length), i < j →
      kle ((sort_items xs).get i) ((sort_items xs).get j)) ∧
    (∀ xs : List Item, (sort_items xs).Perm xs) ∧
    (∀ xs ys : List Item, xs.Perm ys →
      (∀ a ∈ xs, ∀ b ∈ xs, sortKey a = sortKey b → a = b) →
      sort_items xs = sort_items ys) := by
  refine ⟨fun a b => keyLe_total _ _, ?_, sort_items_perm, ?_⟩
  · intro xs i j hij
    exact List.pairwise_iff_get.1 (sort_items_sorted xs) i j hij
  · intro xs ys hp hinj
    apply sorted_perm_eq ?_ (sort_items_sorted xs) (sort_items_sorted ys)
    · intro a ha b hb hk
      exact hinj a ((sort_items_perm xs).mem_iff.1 ha)
        b ((sort_items_perm xs).mem_iff.1 hb) hk
    · exact ((sort_items_perm xs).trans hp).trans (sort_items_perm ys).symm

/-- Distinct-key fixture for the C3 witness. -/
def itT3 : Item :=
  { source_id := "C", source_name := "SC", title := "Zzz", url := "u3",
    published := none, summary := "", geo := "BA", brief_level := "",
    tags := [], score := 2 }

theorem C3_amended_witness :
    List.Perm [itT1, itT3] [itT3, itT1] ∧
    (∀ a ∈ [itT1, itT3], ∀ b ∈ [itT1, itT3], sortKey a = sortKey b → a = b) ∧
    sort_items [itT1, itT3] = sort_items [itT3, itT1] :=
  ⟨List.Perm.swap itT3 itT1 [], by decide,
   C3_amended.2.2.2 [itT1, itT3] [itT3, itT1]
     (List.Perm.swap itT3 itT1 []) (by decide)⟩

/-! ### Idempotence of the aggregator transform -/

theorem firstWins_key_nodup {α κ : Type} [DecidableEq κ] (key : α → κ) :
    ∀ (seen : List κ) (l : List α),
      ((firstWins key seen l).map key).Nodup ∧
      ∀ k ∈ (firstWins key seen l).map key, k ∉ seen := by
  intro seen l
  induction l generalizing seen with
  | nil => simp [firstWins]
  | cons x rest ih =>
    rw [firstWins]
    by_cases hx : key x ∈ seen
    · rw [if_pos hx]
      exact ih seen
    · rw [if_neg hx]
      obtain ⟨ihn, ihs⟩ := ih (key x :: seen)
      refine ⟨?_, ?_⟩
      · rw [List.map_cons, List.nodup_cons]
        exact ⟨fun hmem => (ihs _ hmem) (List.mem_cons_self _ _), ihn⟩
      · intro k hk
        rcases List.mem_cons.1 (List.map_cons _ _ _ ▸ hk) with h | h
        · exact h ▸ hx
        · exact fun hs => (ihs k h) (List.mem_cons_of_mem _ hs)

theorem firstWins_all_keep {α κ : Type} [DecidableEq κ] (key : α → κ) :
    ∀ (seen : List κ) (l : List α), (l.map key).Nodup →
      (∀ k ∈ l.map key, k ∉ seen) → firstWins key seen l = l := by
  intro seen l
  induction l generalizing seen with
  | nil => intro _ _; rfl
  | cons x rest ih =>
    intro hnd hdis
    rw [List.map_cons, List.nodup_cons] at hnd
    rw [firstWins, if_neg (hdis (key x) (by simp))]
    congr 1
    apply ih _ hnd.2
    intro k hk
    rw [List.mem_cons, not_or]
    exact ⟨fun he => hnd.1 (he ▸ hk), hdis k (by simp [hk])⟩

theorem dedupe_keys_nodup (l : List Item) : ((dedupe l).map itemKey).Nodup :=
  (firstWins_key_nodup itemKey [] l).1

theorem dedupe_of_nodup_keys {l : List Item} (h : (l.map itemKey).Nodup) :
    dedupe l = l :=
  firstWins_all_keep itemKey [] l h (fun k _ => List.not_mem_nil k)

/-! ### Maximal alphanumeric runs (the word structure behind `norm_key`) -/

/-- Scanner collecting maximal `[a-z0-9]` runs; `cur` is the reversed run
being read. -/
def wordsGo (cur : List Char) : List Char → List (List Char)
  | [] => if cur = [] then [] else [cur.reverse]
  | c :: cs =>
    if isAlnumLow c then wordsGo (c :: cur) cs
    else if cur = [] then wordsGo [] cs else cur.reverse :: wordsGo [] cs

/-- The maximal `[a-z0-9]` runs of a character list, in order. -/
def alnumWords (l : List Char) : List (List Char) := wordsGo [] l

/-- Words joined by single spaces. -/
def renderWords : List (List Char) → List Char
  | [] => []
  | [w] => w
  | w :: w2 :: ws => w ++ ' ' :: renderWords (w2 :: ws)

/-- Does the list start with a `[^a-z0-9]` character? -/
def startJunk : List Char → Bool
  | [] => false
  | c :: _ => notAl c

/-- Does the list end with a `[^a-z0-9]` character? -/
def endJunk (m : List Char) : Bool := startJunk m.reverse

/-- C8: the aggregator transform `sort ∘ dedupe` is idempotent: applying it
to its own output returns that output unchanged (the keys of a deduplicated
list are pairwise distinct, sorting permutes them, so the second dedupe is
the identity, and sorting a sorted list is the identity). -/
theorem C8_idempotent (xs : List Item) :
    sort_items (dedupe (sort_items (dedupe xs))) = sort_items (dedupe xs) := by
  have h2 : ((sort_items (dedupe xs)).map itemKey).Nodup :=
    (((sort_items_perm (dedupe xs)).map itemKey).symm).nodup (dedupe_keys_nodup xs)
  rw [dedupe_of_nodup_keys h2]
  exact List.Sorted.insertionSort_eq (sort_items_sorted (dedupe xs))

/-! ### Characterizing `norm_key` by the word structure -/

theorem sp_not_alnum {c : Char} (h : isPySpace c = true) :
    isAlnumLow c = false := by
  simp only [isPySpace, decide_eq_true_eq] at h
  rcases h with rfl | rfl | rfl | rfl | rfl | rfl | rfl | rfl | rfl | rfl | rfl | rfl <;> rfl

theorem alnum_not_sp {c : Char} (h : isAlnumLow c = true) :
    isPySpace c = false := by
  cases hs : isPySpace c with
  | false => rfl
  | true => exact absurd h (by simp [sp_not_alnum hs])

theorem notAl_of_sp {c : Char} (h : isPySpace c = true) : notAl c = true := by
  simp [notAl, sp_not_alnum h]

theorem notAl_false_iff {c : Char} : notAl c = false ↔ isAlnumLow c = true := by
  simp [notAl]

theorem notAl_true_iff {c : Char} : notAl c = true ↔ isAlnumLow c = false := by
  simp [notAl]

theorem cg_true_eq (p : Char → Bool) (r : Char) :
    ∀ m : List Char, collapseRunsGo p r true m =
      collapseRunsGo p r false (m.dropWhile p) := by
  intro m
  induction m with
  | nil => rfl
  | cons c cs ih =>
    by_cases hc : p c
    · simp [collapseRunsGo, hc, List.dropWhile_cons, ih]
    · simp [collapseRunsGo, hc, List.dropWhile_cons]

theorem cg_copy {p : Char → Bool} {r : Char} :
    ∀ {W : List Char}, (∀ x ∈ W, p x = false) → ∀ z,
      collapseRunsGo p r false (W ++ z) = W ++ collapseRunsGo p r false z := by
  intro W
  induction W with
  | nil => intro _ z; rfl
  | cons c W' ih =>
    intro h z
    have hc : p c = false := h c (List.mem_cons_self _ _)
    simp only [List.cons_append, collapseRunsGo, hc]
    simp only [Bool.false_eq_true, if_false, List.cons.injEq, true_and]
    exact ih (fun x hx => h x (List.mem_cons_of_mem _ hx)) z

theorem collapse_junk_head {c : Char} {m : List Char} (hc : notAl c = true) :
    collapseRuns notAl ' ' (c :: m) =
      ' ' :: collapseRunsGo notAl ' ' false (m.dropWhile notAl) := by
  rw [collapseRuns, collapseRunsGo, if_pos hc]
  simp only [Bool.false_eq_true, if_false]
  rw [cg_true_eq]

theorem wg_dropJunk : ∀ m : List Char,
    wordsGo [] (m.dropWhile notAl) = wordsGo [] m := by
  intro m
  induction m with
  | nil => rfl
  | cons c cs ih =>
    by_cases hc : notAl c
    · rw [List.dropWhile_cons_of_pos hc, ih, wordsGo,
        if_neg (by simpa using notAl_true_iff.1 hc), if_pos rfl]
    · rw [List.dropWhile_cons_of_neg hc]

theorem wg_word : ∀ {W : List Char}, (∀ x ∈ W, isAlnumLow x = true) →
    ∀ (cur z : List Char), wordsGo cur (W ++ z) = wordsGo (W.reverse ++ cur) z := by
  intro W
  induction W with
  | nil => intro _ cur z; rfl
  | cons c W' ih =>
    intro h cur z
    have hc : isAlnumLow c = true := h c (List.mem_cons_self _ _)
    rw [List.cons_append, wordsGo, if_pos hc,
      ih (fun x hx => h x (List.mem_cons_of_mem _ hx)) (c :: cur) z]
    simp

theorem wg_ne : ∀ (z cur : List Char), cur ≠ [] → wordsGo cur z ≠ [] := by
  intro z
  induction z with
  | nil => intro cur h; simp [wordsGo, h]
  | cons c cs ih =>
    intro cur h
    rw [wordsGo]
    by_cases hc : isAlnumLow c
    · rw [if_pos hc]
      exact ih _ (by simp)
    · rw [if_neg hc, if_neg h]
      simp

theorem wg_all_junk : ∀ {S : List Char}, (∀ x ∈ S, isAlnumLow x = false) →
    ∀ cur, wordsGo cur S = if cur = [] then [] else [cur.reverse] := by
  intro S
  induction S with
  | nil => intro _ cur; rfl
  | cons c S' ih =>
    intro h cur
    have hc := h c (List.mem_cons_self _ _)
    have ih' := ih (fun x hx => h x (List.mem_cons_of_mem _ hx))
    rw [wordsGo, if_neg (by simp [hc])]
    by_cases hcur : cur = []
    · rw [if_pos hcur, ih', if_pos rfl, if_pos hcur]
    · rw [if_neg hcur, ih', if_pos rfl, if_neg hcur]

theorem wg_junktail : ∀ (A : List Char) {S : List Char},
    (∀ x ∈ S, isAlnumLow x = false) → ∀ cur,
      wordsGo cur (A ++ S) = wordsGo cur A := by
  intro A
  induction A with
  | nil =>
    intro S h cur
    rw [List.nil_append, wg_all_junk h, wordsGo]
  | cons c A' ih =>
    intro S h cur
    rw [List.cons_append, wordsGo, wordsGo]
    by_cases hc : isAlnumLow c
    · rw [if_pos hc, if_pos hc, ih h]
    · rw [if_neg hc, if_neg hc]
      by_cases hcur : cur = []
      · rw [if_pos hcur, if_pos hcur, ih h]
      · rw [if_neg hcur, if_neg hcur, ih h]

theorem wg_dropP_front {p : Char → Bool}
    (hp : ∀ c, p c = true → isAlnumLow c = false) :
    ∀ z : List Char, wordsGo [] (z.dropWhile p) = wordsGo [] z := by
  intro z
  induction z with
  | nil => rfl
  | cons c cs ih =>
    by_cases hc : p c
    · rw [List.dropWhile_cons_of_pos hc, ih, wordsGo,
        if_neg (by simp [hp c hc]), if_pos rfl]
    · rw [List.dropWhile_cons_of_neg hc]

theorem words_wf : ∀ (m cur : List Char),
    (∀ x ∈ cur, isAlnumLow x = true) →
    ∀ w ∈ wordsGo cur m, w ≠ [] ∧ ∀ x ∈ w, isAlnumLow x = true := by
  intro m
  induction m with
  | nil =>
    intro cur hcur w hw
    rw [wordsGo] at hw
    by_cases hc : cur = []
    · rw [if_pos hc] at hw; cases hw
    · rw [if_neg hc] at hw
      rcases List.mem_singleton.1 hw with rfl
      exact ⟨by simpa using hc, fun x hx => hcur x (List.mem_reverse.1 hx)⟩
  | cons c cs ih =>
    intro cur hcur w hw
    rw [wordsGo] at hw
    by_cases hc : isAlnumLow c
    · rw [if_pos hc] at hw
      have hcur2 : ∀ x ∈ c :: cur, isAlnumLow x = true := by
        intro x hx
        rcases List.mem_cons.1 hx with rfl | hx2
        · exact hc
        · exact hcur x hx2
      exact ih _ hcur2 w hw
    · rw [if_neg hc] at hw
      by_cases hcu : cur = []
      · rw [if_pos hcu] at hw
        exact ih [] (by simp) w hw
      · rw [if_neg hcu] at hw
        rcases List.mem_cons.1 hw with rfl | hw
        · exact ⟨by simpa using hcu, fun x hx => hcur x (List.mem_reverse.1 hx)⟩
        · exact ih [] (by simp) w hw

theorem dropWhile_append_all {p : Char → Bool} :
    ∀ {a : List Char}, (∀ x ∈ a, p x = true) → ∀ b : List Char,
      (a ++ b).dropWhile p = b.dropWhile p := by
  intro a
  induction a with
  | nil => intro _ b; rfl
  | cons c a' ih =>
    intro h b
    rw [List.cons_append, List.dropWhile_cons_of_pos (h c (List.mem_cons_self _ _))]
    exact ih (fun x hx => h x (List.mem_cons_of_mem _ hx)) b

theorem dropWhile_all_nil {p : Char → Bool} :
    ∀ {l : List Char}, (∀ x ∈ l, p x = true) → l.dropWhile p = [] := by
  intro l
  induction l with
  | nil => intro _; rfl
  | cons c l' ih =>
    intro h
    rw [List.dropWhile_cons_of_pos (h c (List.mem_cons_self _ _))]
    exact ih (fun x hx => h x (List.mem_cons_of_mem _ hx))

theorem dropWhile_head_prop {p : Char → Bool} :
    ∀ {l : List Char} {d : Char} {r : List Char},
      l.dropWhile p = d :: r → p d = false := by
  intro l
  induction l with
  | nil => intro d r h; cases h
  | cons c l' ih =>
    intro d r h
    by_cases hc : p c
    · rw [List.dropWhile_cons_of_pos hc] at h
      exact ih h
    · rw [List.dropWhile_cons_of_neg hc] at h
      injection h with h1 _
      subst h1
      simpa using hc

theorem pyStripP_strip {lead core trail : List Char}
    (hl : ∀ x ∈ lead, isPySpace x = true) (ht : ∀ x ∈ trail, isPySpace x = true)
    (hcf : ∀ a c', core = a :: c' → isPySpace a = false)
    (hcb : ∀ a c', core.reverse = a :: c' → isPySpace a = false) :
    pyStripP isPySpace (lead ++ core ++ trail) = core := by
  cases core with
  | nil =>
    have hall : ∀ x ∈ lead ++ trail, isPySpace x = true := by
      intro x hx
      rcases List.mem_append.1 hx with hx | hx
      · exact hl x hx
      · exact ht x hx
    unfold pyStripP
    rw [List.append_nil, dropWhile_all_nil hall]
    rfl
  | cons a c' =>
    have ha : isPySpace a = false := hcf a c' rfl
    unfold pyStripP
    rw [List.append_assoc, dropWhile_append_all hl, List.cons_append,
      List.dropWhile_cons_of_neg (by simp [ha]), ← List.cons_append,
      List.reverse_append,
      dropWhile_append_all (fun x hx => ht x (List.mem_reverse.1 hx))]
    cases hrev : (a :: c').reverse with
    | nil => exact absurd hrev (by simp)
    | cons b rb =>
      have hb : isPySpace b = false := hcb b rb hrev
      rw [List.dropWhile_cons_of_neg (by simp [hb]), ← hrev,
        List.reverse_reverse]

theorem renderWords_ne :
    ∀ {ws : List (List Char)}, ws ≠ [] → (∀ w ∈ ws, w ≠ []) →
      renderWords ws ≠ [] := by
  intro ws
  match ws with
  | [] => intro h _; exact absurd rfl h
  | [w] => intro _ h; exact h w (List.mem_singleton_self _)
  | w :: w2 :: ws' =>
    intro _ h
    rw [renderWords]
    intro hcontr
    exact h w (List.mem_cons_self _ _) (List.append_eq_nil.1 hcontr).1

theorem renderWords_head :
    ∀ {ws : List (List Char)},
      (∀ w ∈ ws, w ≠ [] ∧ ∀ x ∈ w, isAlnumLow x = true) →
      ∀ a t, renderWords ws = a :: t → isAlnumLow a = true := by
  intro ws
  match ws with
  | [] => intro _ a t h; cases h
  | [w] =>
    intro hwf a t h
    rw [renderWords] at h
    refine (hwf w (List.mem_singleton_self _)).2 a ?_
    rw [h]
    exact List.mem_cons_self _ _
  | w :: w2 :: ws' =>
    intro hwf a t h
    rw [renderWords] at h
    obtain ⟨hne, hal⟩ := hwf w (List.mem_cons_self _ _)
    cases hw : w with
    | nil => exact absurd hw hne
    | cons wh wt =>
      rw [hw, List.cons_append] at h
      injection h with h1 _
      refine hal a ?_
      rw [hw, ← h1]
      exact List.mem_cons_self _ _

theorem renderWords_last :
    ∀ (ws : List (List Char)),
      (∀ w ∈ ws, w ≠ [] ∧ ∀ x ∈ w, isAlnumLow x = true) → ws ≠ [] →
      ∃ b t', (renderWords ws).reverse = b :: t' ∧ isAlnumLow b = true := by
  intro ws
  match ws with
  | [] => intro _ h; exact absurd rfl h
  | [w] =>
    intro hwf _
    obtain ⟨hne, hal⟩ := hwf w (List.mem_singleton_self _)
    cases hrev : w.reverse with
    | nil => exact absurd (by simpa using congrArg List.reverse hrev) hne
    | cons b t' =>
      refine ⟨b, t', by rw [renderWords, hrev], hal b ?_⟩
      rw [← List.mem_reverse, hrev]
      exact List.mem_cons_self _ _
  | w :: w2 :: ws' =>
    intro hwf _
    obtain ⟨b, t', hbt, hb⟩ := renderWords_last (w2 :: ws')
      (fun x hx => hwf x (List.mem_cons_of_mem _ hx)) (by simp)
    refine ⟨b, t' ++ ' ' :: w.reverse, ?_, hb⟩
    rw [renderWords, List.reverse_append, List.reverse_cons, hbt]
    simp

theorem startJunk_append {x : List Char} (hx : x ≠ []) (y : List Char) :
    startJunk (x ++ y) = startJunk x := by
  cases x with
  | nil => exact absurd rfl hx
  | cons c x' => rfl

theorem endJunk_append_right {a b : List Char} (hb : b ≠ []) :
    endJunk (a ++ b) = endJunk b := by
  unfold endJunk
  rw [List.reverse_append, startJunk_append (by simpa using hb)]

theorem endJunk_all_junk {j : Char} {r : List Char} (hj : notAl j = true)
    (hr : ∀ x ∈ r, notAl x = true) : endJunk (j :: r) = true := by
  unfold endJunk
  rw [List.reverse_cons]
  cases h2 : r.reverse with
  | nil => simpa [startJunk] using hj
  | cons d rd =>
    have hd : d ∈ r := by
      rw [← List.mem_reverse, h2]
      exact List.mem_cons_self _ _
    simpa [startJunk, List.cons_append] using hr d hd

theorem dropWhile_nil_all {p : Char → Bool} {l : List Char}
    (h : l.dropWhile p = []) : ∀ x ∈ l, p x = true := by
  intro x hx
  have h0 : l.takeWhile p ++ l.dropWhile p = l := List.takeWhile_append_dropWhile _ _
  rw [h, List.append_nil] at h0
  exact List.mem_takeWhile_imp (h0 ▸ hx)

theorem words_nil_of_dropJunk_head {z : List Char}
    (hz : alnumWords (z.dropWhile notAl) = []) : z.dropWhile notAl = [] := by
  cases h2 : z.dropWhile notAl with
  | nil => rfl
  | cons d r =>
    have hd : notAl d = false := dropWhile_head_prop h2
    rw [h2, alnumWords, wordsGo, if_pos (notAl_false_iff.1 hd)] at hz
    exact absurd hz (wg_ne r [d] (by simp))

theorem collapse_decomp : ∀ (n : Nat) (m : List Char), m.length ≤ n →
    collapseRuns notAl ' ' m =
      (if startJunk m = true then [' '] else []) ++
        renderWords (alnumWords m) ++
      (if endJunk m = true ∧ alnumWords m ≠ [] then [' '] else []) := by
  intro n
  induction n with
  | zero =>
    intro m hm
    rw [List.length_eq_zero.1 (Nat.le_zero.1 hm)]
    rfl
  | succ n ih =>
    intro m hm
    cases m with
    | nil => rfl
    | cons c m' =>
      have hm' : m'.length ≤ n := Nat.le_of_succ_le_succ hm
      by_cases hc : notAl c
      · -- junk-headed input
        have hm2 : (m'.dropWhile notAl).length ≤ n :=
          le_trans ((List.dropWhile_sublist notAl).length_le :
            (m'.dropWhile notAl).length ≤ m'.length) hm'
        have hIH := ih (m'.dropWhile notAl) hm2
        have hsj2 : startJunk (m'.dropWhile notAl) = false := by
          cases h2 : m'.dropWhile notAl with
          | nil => rfl
          | cons d r => simpa [startJunk] using dropWhile_head_prop h2
        have hwords : alnumWords (c :: m') = alnumWords (m'.dropWhile notAl) := by
          rw [alnumWords, wordsGo, if_neg (by simp [notAl_true_iff.1 hc]),
            if_pos rfl]
          exact (wg_dropJunk m').symm
        rw [collapse_junk_head hc,
          show collapseRunsGo notAl ' ' false (m'.dropWhile notAl) =
            collapseRuns notAl ' ' (m'.dropWhile notAl) from rfl,
          hIH, hsj2, hwords]
        have hstart : startJunk (c :: m') = true := hc
        rw [hstart]
        by_cases hws : alnumWords (m'.dropWhile notAl) = []
        · simp [hws, renderWords]
        · have hm2ne : m'.dropWhile notAl ≠ [] := by
            intro h2
            rw [h2] at hws
            exact hws rfl
          have hendeq : endJunk (c :: m') = endJunk (m'.dropWhile notAl) := by
            have h0 : m'.takeWhile notAl ++ m'.dropWhile notAl = m' :=
              List.takeWhile_append_dropWhile _ _
            have h1 : c :: m' = (c :: m'.takeWhile notAl) ++ m'.dropWhile notAl := by
              rw [List.cons_append, h0]
            rw [h1, endJunk_append_right hm2ne]
          rw [hendeq]
          simp [hws]
      · -- alnum-headed input
        have hca : isAlnumLow c = true := notAl_false_iff.1 (by simpa using hc)
        have h0 : m'.takeWhile isAlnumLow ++ m'.dropWhile isAlnumLow = m' :=
          List.takeWhile_append_dropWhile _ _
        have hWall : ∀ x ∈ c :: m'.takeWhile isAlnumLow, isAlnumLow x = true := by
          intro x hx
          rcases List.mem_cons.1 hx with rfl | hx
          · exact hca
          · exact List.mem_takeWhile_imp hx
        have hWjf : ∀ x ∈ c :: m'.takeWhile isAlnumLow, notAl x = false :=
          fun x hx => notAl_false_iff.2 (hWall x hx)
        have hsj : startJunk (c :: m') = false := by
          simpa [startJunk] using notAl_false_iff.2 hca
        cases hrest : m'.dropWhile isAlnumLow with
        | nil =>
          have hm'all : m'.takeWhile isAlnumLow = m' := by
            rw [hrest, List.append_nil] at h0
            exact h0
          have hall : ∀ x ∈ c :: m', isAlnumLow x = true := by
            rw [← hm'all]
            exact hWall
          have hjf : ∀ x ∈ c :: m', notAl x = false :=
            fun x hx => notAl_false_iff.2 (hall x hx)
          have hcol : collapseRuns notAl ' ' (c :: m') = c :: m' := by
            have h1 : collapseRunsGo notAl ' ' false ((c :: m') ++ []) =
                (c :: m') ++ collapseRunsGo notAl ' ' false [] := cg_copy hjf []
            simpa [collapseRuns, collapseRunsGo] using h1
          have hwords : alnumWords (c :: m') = [c :: m'] := by
            have h1 := wg_word hall [] []
            rw [List.append_nil] at h1
            rw [alnumWords, h1, List.append_nil, wordsGo, if_neg (by simp),
              List.reverse_reverse]
          have hej : endJunk (c :: m') = false := by
            unfold endJunk
            cases h2 : (c :: m').reverse with
            | nil => simp at h2
            | cons d r =>
              have hd : d ∈ c :: m' := by
                rw [← List.mem_reverse, h2]
                exact List.mem_cons_self _ _
              simpa [startJunk] using notAl_false_iff.2 (hall d hd)
          rw [hcol, hwords, hsj, hej]
          simp [renderWords]
        | cons j rest' =>
          have hj : isAlnumLow j = false := dropWhile_head_prop hrest
          have hjn : notAl j = true := notAl_true_iff.2 hj
          have hsplit : c :: m' = (c :: m'.takeWhile isAlnumLow) ++ j :: rest' := by
            rw [List.cons_append]
            rw [hrest] at h0
            rw [h0]
          have hcol : collapseRuns notAl ' ' (c :: m') =
              (c :: m'.takeWhile isAlnumLow) ++
                ' ' :: collapseRuns notAl ' ' (rest'.dropWhile notAl) := by
            rw [collapseRuns, hsplit, cg_copy hWjf]
            congr 1
            rw [collapseRunsGo, if_pos hjn]
            simp only [Bool.false_eq_true, if_false]
            rw [cg_true_eq]
            rfl
          have hwords : alnumWords (c :: m') =
              (c :: m'.takeWhile isAlnumLow) :: alnumWords (rest'.dropWhile notAl) := by
            rw [alnumWords, hsplit, wg_word hWall, List.append_nil, wordsGo,
              if_neg (by simp [hj]), if_neg (by simp), List.reverse_reverse,
              alnumWords, wg_dropJunk]
          have hlen2 : (rest'.dropWhile notAl).length ≤ n := by
            have e1 : (rest'.dropWhile notAl).length ≤ rest'.length :=
              (List.dropWhile_sublist notAl).length_le
            have e2 : (j :: rest').length ≤ m'.length := by
              rw [← hrest]
              exact (List.dropWhile_sublist isAlnumLow).length_le
            simp only [List.length_cons] at e2
            omega
          have hIH := ih (rest'.dropWhile notAl) hlen2
          have hsj2 : startJunk (rest'.dropWhile notAl) = false := by
            cases h2 : rest'.dropWhile notAl with
            | nil => rfl
            | cons d r => simpa [startJunk] using dropWhile_head_prop h2
          rw [hsj2] at hIH
          simp only [Bool.false_eq_true, if_false, List.nil_append] at hIH
          by_cases hws : alnumWords (rest'.dropWhile notAl) = []
          · have hr2nil : rest'.dropWhile notAl = [] := words_nil_of_dropJunk_head hws
            have hrall : ∀ x ∈ rest', notAl x = true := dropWhile_nil_all hr2nil
            have hej : endJunk (c :: m') = true := by
              rw [hsplit, endJunk_append_right (by simp)]
              exact endJunk_all_junk hjn hrall
            rw [hcol, hwords, hws, hsj, hej, hr2nil]
            simp [renderWords, collapseRuns, collapseRunsGo]
          · have hr2ne : rest'.dropWhile notAl ≠ [] := by
              intro h2
              rw [h2] at hws
              exact hws rfl
            have hej : endJunk (c :: m') = endJunk (rest'.dropWhile notAl) := by
              have h1 : rest'.takeWhile notAl ++ rest'.dropWhile notAl = rest' :=
                List.takeWhile_append_dropWhile _ _

              have h2 : c :: m' = ((c :: m'.takeWhile isAlnumLow) ++
                  (j :: rest'.takeWhile notAl)) ++ rest'.dropWhile notAl := by
                rw [hsplit]
                simp only [List.cons_append, List.append_assoc]
                rw [h1]
              rw [h2, endJunk_append_right hr2ne]
            obtain ⟨w2, ws2, hws2⟩ : ∃ w2 ws2,
                alnumWords (rest'.dropWhile notAl) = w2 :: ws2 := by
              cases h3 : alnumWords (rest'.dropWhile notAl) with
              | nil => exact absurd h3 hws
              | cons w2 ws2 => exact ⟨w2, ws2, rfl⟩
            rw [hcol, hwords, hIH, hsj, hej, hws2, renderWords, ← hws2]
            simp [hws]

theorem words_strip_inv :
    ∀ z : List Char, alnumWords (pyStripP isPySpace z) = alnumWords z := by
  intro z
  have hfront : alnumWords (z.dropWhile isPySpace) = alnumWords z :=
    wg_dropP_front (fun c hc => sp_not_alnum hc) z
  have hdecomp : (z.dropWhile isPySpace) =
      pyStripP isPySpace z ++
        ((z.dropWhile isPySpace).reverse.takeWhile isPySpace).reverse := by
    unfold pyStripP
    rw [← List.reverse_append, List.takeWhile_append_dropWhile _ _,
      List.reverse_reverse]
  have htail : ∀ x ∈ ((z.dropWhile isPySpace).reverse.takeWhile isPySpace).reverse,
      isAlnumLow x = false := by
    intro x hx
    exact sp_not_alnum (List.mem_takeWhile_imp (List.mem_reverse.1 hx))
  calc alnumWords (pyStripP isPySpace z)
      = alnumWords (pyStripP isPySpace z ++
          ((z.dropWhile isPySpace).reverse.takeWhile isPySpace).reverse) :=
        (wg_junktail _ htail []).symm
    _ = alnumWords (z.dropWhile isPySpace) := by rw [← hdecomp]
    _ = alnumWords z := hfront

theorem wordsGo_collapse_sp :
    ∀ (l : List Char) (b : Bool) (cur : List Char), (b = true → cur = []) →
      wordsGo cur (collapseRunsGo isPySpace ' ' b l) = wordsGo cur l := by
  intro l
  induction l with
  | nil => intro b cur _; rfl
  | cons c cs ih =>
    intro b cur hbc
    by_cases hc : isPySpace c
    · have hca : isAlnumLow c = false := sp_not_alnum hc
      cases b with
      | true =>
        have hcur : cur = [] := hbc rfl
        subst hcur
        rw [collapseRunsGo, if_pos hc, if_pos rfl, ih true [] (fun _ => rfl),
          wordsGo, if_neg (by simp [hca]), if_pos rfl]
      | false =>
        rw [collapseRunsGo, if_pos hc]
        simp only [Bool.false_eq_true, if_false]
        have hL : wordsGo cur (' ' :: collapseRunsGo isPySpace ' ' true cs) =
            (if cur = [] then wordsGo [] (collapseRunsGo isPySpace ' ' true cs)
             else cur.reverse :: wordsGo [] (collapseRunsGo isPySpace ' ' true cs)) := by
          rw [wordsGo, if_neg (by decide)]
        have hR : wordsGo cur (c :: cs) =
            (if cur = [] then wordsGo [] cs else cur.reverse :: wordsGo [] cs) := by
          rw [wordsGo, if_neg (by simp [hca])]
        rw [hL, hR, ih true [] (fun _ => rfl)]
    · rw [collapseRunsGo, if_neg hc, wordsGo, wordsGo]
      by_cases hca : isAlnumLow c
      · rw [if_pos hca, if_pos hca, ih false _ (by simp)]
      · rw [if_neg hca, if_neg hca]
        by_cases hcur : cur = []
        · rw [if_pos hcur, if_pos hcur, ih false _ (by simp)]
        · rw [if_neg hcur, if_neg hcur, ih false _ (by simp)]

theorem words_collapse_sp_inv :
    ∀ z : List Char,
      alnumWords (collapseRuns isPySpace ' ' z) = alnumWords z := by
  intro z
  exact wordsGo_collapse_sp z false [] (fun h => by cases h)

theorem string_data_ext {s t : String} (h : s.data = t.data) : s = t := by
  cases s
  cases t
  exact congrArg String.mk h

/-- The closed form of `norm_key`: the maximal `[a-z0-9]` runs of the
lowercased title, joined by single spaces.  (The inner `norm_space` and the
final `strip` only affect discarded junk characters.) -/
theorem norm_key_words (s : String) :
    (norm_key s).data = renderWords (alnumWords (s.data.map lowChar)) := by
  have hm : alnumWords ((norm_space s).data.map lowChar) =
      alnumWords (s.data.map lowChar) := by
    rw [map_lowChar_norm_space, words_strip_inv, words_collapse_sp_inv]
  have hwf : ∀ w ∈ alnumWords (s.data.map lowChar),
      w ≠ [] ∧ ∀ x ∈ w, isAlnumLow x = true :=
    words_wf (s.data.map lowChar) [] (by simp)
  show pyStripP isPySpace
      (collapseRuns notAl ' ' ((norm_space s).data.map lowChar)) = _
  rw [collapse_decomp ((norm_space s).data.map lowChar).length
    ((norm_space s).data.map lowChar) le_rfl, hm]
  have hl : ∀ x ∈ (if startJunk ((norm_space s).data.map lowChar) = true
      then [' '] else ([] : List Char)), isPySpace x = true := by
    split
    · intro x hx
      rcases List.mem_singleton.1 hx with rfl
      rfl
    · intro x hx
      cases hx
  have ht : ∀ x ∈ (if endJunk ((norm_space s).data.map lowChar) = true ∧
        alnumWords (s.data.map lowChar) ≠ []
      then [' '] else ([] : List Char)), isPySpace x = true := by
    split
    · intro x hx
      rcases List.mem_singleton.1 hx with rfl
      rfl
    · intro x hx
      cases hx
  refine pyStripP_strip hl ht
    (fun a c' h => alnum_not_sp (renderWords_head hwf a c' h))
    (fun a c' h => ?_)
  have hne : alnumWords (s.data.map lowChar) ≠ [] := by
    intro hz
    rw [hz] at h
    cases h
  obtain ⟨b, t', hbt, hb⟩ :=
    renderWords_last (alnumWords (s.data.map lowChar)) hwf hne
  rw [hbt] at h
  injection h with h1 _
  rw [← h1]
  exact alnum_not_sp hb

/-- Punctuation-variant pair: `"a-b"` and `"ab"` differ only in a character
outside `[a-z0-9]`, yet their `norm_key`s differ (`"a b"` vs `"ab"`). -/
def itN1 : Item :=
  { source_id := "A", source_name := "SA", title := "a-b",
    url := "http://x/p", published := none, summary := "", geo := "BA",
    brief_level := "", tags := [], score := 0 }

/-- Second element of the punctuation-variant pair. -/
def itN2 : Item :=
  { source_id := "B", source_name := "SB", title := "ab",
    url := "http://x/p", published := none, summary := "", geo := "BA",
    brief_level := "", tags := [], score := 0 }

/-- C10 counterexample: two items with identical canonical URL whose titles
differ only in a character outside `[a-z0-9]` (dropping all such characters
from the lowercased titles leaves the same string `"ab"`), yet `norm_key`
maps them to different keys (the junk run becomes a separating space, not
nothing) and `dedupe` keeps both — refuting the claimed consequence that
every such pair is treated as a duplicate pair. -/
theorem C10_counterexample :
    strip_utm itN1.url = strip_utm itN2.url ∧
    (itN1.title.data.map lowChar).filter isAlnumLow =
      (itN2.title.data.map lowChar).filter isAlnumLow ∧
    norm_key itN1.title ≠ norm_key itN2.title ∧
    dedupe [itN1, itN2] = [itN1, itN2] := by
  decide

/-- C10 (amended): the title key is coarser than the lowercased title, but
the right invariant is the sequence of maximal `[a-z0-9]` runs: `norm_key`
equals those runs of the lowercased title joined by single spaces, and two
items with equal canonical URL whose lowercased titles have the same run
sequence (so titles differing in punctuation, accented letters or spacing
placed at run boundaries) collapse under `dedupe` to the first item. -/
theorem C10_amended (s : String) (a b : Item)
    (hu : strip_utm a.url = strip_utm b.url)
    (ht : alnumWords (a.title.data.map lowChar) =
      alnumWords (b.title.data.map lowChar)) :
    (norm_key s).data = renderWords (alnumWords (s.data.map lowChar)) ∧
    dedupe [a, b] = [a] := by
  refine ⟨norm_key_words s, ?_⟩
  have hnk : (norm_key b.title).data = (norm_key a.title).data := by
    rw [norm_key_words, norm_key_words, ht]
  have hk : itemKey b = itemKey a := by
    unfold itemKey
    rw [hu, string_data_ext hnk]
  simp [dedupe, firstWins, hk]

/-- Run-equivalent pair: titles built from the same alphanumeric runs with
different punctuation, case, and spacing around them. -/
def itN3 : Item :=
  { source_id := "A", source_name := "SA", title := "Doprava, BA-5!",
    url := "http://x/q?utm_s=1", published := none, summary := "", geo := "BA",
    brief_level := "", tags := [], score := 0 }

/-- Second element of the run-equivalent pair. -/
def itN4 : Item :=
  { source_id := "B", source_name := "SB", title := "DOPRAVA (ba) 5",
    url := "http://x/q", published := none, summary := "", geo := "BA",
    brief_level := "", tags := [], score := 0 }

theorem C10_amended_witness :
    strip_utm itN3.url = strip_utm itN4.url ∧
    alnumWords (itN3.title.data.map lowChar) =
      alnumWords (itN4.title.data.map lowChar) ∧
    ((norm_key "A,,b 9!").data =
      renderWords (alnumWords ("A,,b 9!".data.map lowChar)) ∧
     dedupe [itN3, itN4] = [itN3]) :=
  ⟨by decide, by decide,
    C10_amended "A,,b 9!" itN3 itN4 (by decide) (by decide)⟩

/-! ### Idempotence analysis of `strip_utm` (claim C9)

The first substitution never leaves a deletable occurrence behind, so on
newline-free inputs `strip_utm` is idempotent; the `$`-before-final-newline
semantics of the second substitution is the only source of
non-idempotence. -/

/-- A list on which no alternative of the tracking regex can begin: empty,
or headed by one of the value-terminating characters `&`/`#`. -/
def blockedB : List Char → Bool
  | [] => true
  | z :: _ => ! vChar z

/-- Does a deletable occurrence of the tracking pattern remain anywhere in
the list? -/
def hasMatch : List Char → Bool
  | [] => false
  | c :: cs => (isQA c && (matchTail cs).isSome) || hasMatch cs

theorem vChar_false_iff {z : Char} : vChar z = false ↔ z = '&' ∨ z = '#' := by
  constructor
  · intro h
    by_cases h1 : z = '&'
    · exact Or.inl h1
    · by_cases h2 : z = '#'
      · exact Or.inr h2
      · exact absurd h (by simp [vChar, h1, h2])
  · intro h
    rcases h with rfl | rfl <;> decide

theorem isQA_rChar {c : Char} (h : isQA c = true) : rChar c = true := by
  simp only [isQA, decide_eq_true_eq] at h
  rcases h with rfl | rfl <;> decide

theorem stripCI_some_shape :
    ∀ (lit l t : List Char), stripCI lit l = some t →
      ∃ w, l = w ++ t ∧ w.map lowChar = lit := by
  intro lit
  induction lit with
  | nil =>
    intro l t h
    have h1 : l = t := Option.some.inj h
    exact ⟨[], by rw [h1]; rfl, rfl⟩
  | cons a lit' ih =>
    intro l t h
    cases l with
    | nil => cases h
    | cons x xs =>
      rw [stripCI] at h
      by_cases hx : lowChar x = a
      · rw [if_pos hx] at h
        obtain ⟨w, hw, hmap⟩ := ih xs t h
        exact ⟨x :: w, by rw [List.cons_append, hw], by simp [hmap, hx]⟩
      · rw [if_neg hx] at h
        cases h

theorem stripCI_of_map :
    ∀ (w t : List Char), stripCI (w.map lowChar) (w ++ t) = some t := by
  intro w
  induction w with
  | nil => intro t; rfl
  | cons x w' ih =>
    intro t
    rw [List.map_cons, List.cons_append, stripCI, if_pos rfl]
    exact ih t

theorem stripCI_of_map_eq {w lit t : List Char} (h : w.map lowChar = lit) :
    stripCI lit (w ++ t) = some t := by
  rw [← h]
  exact stripCI_of_map w t

theorem takeWhile_append_stop {p : Char → Bool} :
    ∀ {a : List Char}, (∀ y ∈ a, p y = true) → ∀ {z : Char}, p z = false →
      ∀ (b : List Char), (a ++ z :: b).takeWhile p = a := by
  intro a
  induction a with
  | nil =>
    intro _ z hz b
    exact List.takeWhile_cons_of_neg (by simp [hz])
  | cons x xs ih =>
    intro ha z hz b
    rw [List.cons_append,
      List.takeWhile_cons_of_pos (ha x (List.mem_cons_self _ _)),
      ih (fun y hy => ha y (List.mem_cons_of_mem _ hy)) hz b]

theorem dropWhile_append_stop {p : Char → Bool} {a : List Char}
    (ha : ∀ y ∈ a, p y = true) {z : Char} (hz : p z = false) (b : List Char) :
    (a ++ z :: b).dropWhile p = z :: b := by
  rw [dropWhile_append_all ha, List.dropWhile_cons_of_neg (by simp [hz])]

theorem blockedB_dropWhile (t2 : List Char) :
    blockedB (t2.dropWhile vChar) = true := by
  cases hd : t2.dropWhile vChar with
  | nil => rfl
  | cons d ds => simp [blockedB, dropWhile_head_prop hd]

theorem blockedB_cons_iff {z : Char} {zs : List Char} :
    blockedB (z :: zs) = true ↔ vChar z = false := by
  simp [blockedB]

theorem tryVal_some_shape {t r : List Char} (h : tryVal t = some r) :
    ∃ val, t = '=' :: (val ++ r) ∧ val ≠ [] ∧ (∀ y ∈ val, vChar y = true) ∧
      blockedB r = true := by
  rw [tryVal.eq_def] at h
  split at h
  · rename_i t2
    split at h
    · cases h
    · rename_i hne
      have h1 : t2.dropWhile vChar = r := Option.some.inj h
      refine ⟨t2.takeWhile vChar, ?_, ?_, ?_, ?_⟩
      · rw [← h1, List.takeWhile_append_dropWhile]
      · intro hc
        exact hne (by rw [List.isEmpty_iff]; exact hc)
      · intro y hy
        exact List.mem_takeWhile_imp hy
      · rw [← h1]
        exact blockedB_dropWhile t2
  · cases h

theorem tryVal_isSome_of {x : Char} (t : List Char) (hx : vChar x = true) :
    (tryVal ('=' :: x :: t)).isSome = true := by
  rw [tryVal, List.takeWhile_cons_of_pos hx]
  simp [List.isEmpty]

theorem tryUtm_some_shape {l r : List Char} (h : tryUtm l = some r) :
    ∃ w n val, l = w ++ (n ++ '=' :: (val ++ r)) ∧
      w.map lowChar = ['u', 't', 'm', '_'] ∧ n ≠ [] ∧
      (∀ y ∈ n, rChar y = true) ∧ val ≠ [] ∧ (∀ y ∈ val, vChar y = true) ∧
      blockedB r = true := by
  unfold tryUtm at h
  cases hstrip : stripCI ['u', 't', 'm', '_'] l with
  | none => rw [hstrip] at h; cases h
  | some t =>
    rw [hstrip] at h
    dsimp only at h
    by_cases hemp : (t.takeWhile rChar).isEmpty
    · rw [if_pos hemp] at h; cases h
    · rw [if_neg hemp] at h
      obtain ⟨val, hval, hvne, hvv, hbr⟩ := tryVal_some_shape h
      obtain ⟨w, hw, hmap⟩ := stripCI_some_shape _ _ _ hstrip
      have ht : t = t.takeWhile rChar ++ '=' :: (val ++ r) := by
        rw [← hval]
        exact (List.takeWhile_append_dropWhile _ _).symm
      refine ⟨w, t.takeWhile rChar, val, ?_, hmap, ?_, ?_, hvne, hvv, hbr⟩
      · rw [hw, ← ht]
      · intro hc
        exact hemp (by rw [List.isEmpty_iff]; exact hc)
      · intro y hy
        exact List.mem_takeWhile_imp hy

theorem tryUtm_isSome_of {l w n : List Char} {x : Char} {t : List Char}
    (hl : l = w ++ (n ++ '=' :: x :: t))
    (hmap : w.map lowChar = ['u', 't', 'm', '_'])
    (hn : n ≠ []) (hnr : ∀ y ∈ n, rChar y = true) (hx : vChar x = true) :
    (tryUtm l).isSome = true := by
  unfold tryUtm
  rw [hl, stripCI_of_map_eq hmap]
  dsimp only
  rw [takeWhile_append_stop hnr (by decide) (x :: t),
    dropWhile_append_stop hnr (by decide) (x :: t),
    if_neg (by rw [List.isEmpty_iff]; exact hn)]
  exact tryVal_isSome_of t hx

theorem tryLit_some_shape {lit l r : List Char} (h : tryLit lit l = some r) :
    ∃ w val, l = w ++ '=' :: (val ++ r) ∧ w.map lowChar = lit ∧
      val ≠ [] ∧ (∀ y ∈ val, vChar y = true) ∧ blockedB r = true := by
  unfold tryLit at h
  cases hstrip : stripCI lit l with
  | none => rw [hstrip] at h; cases h
  | some t =>
    rw [hstrip] at h
    dsimp only at h
    obtain ⟨val, hval, hvne, hvv, hbr⟩ := tryVal_some_shape h
    obtain ⟨w, hw, hmap⟩ := stripCI_some_shape _ _ _ hstrip
    exact ⟨w, val, by rw [hw, hval], hmap, hvne, hvv, hbr⟩

theorem tryLit_isSome_of {lit l w : List Char} {x : Char} {t : List Char}
    (hl : l = w ++ '=' :: x :: t) (hmap : w.map lowChar = lit)
    (hx : vChar x = true) : (tryLit lit l).isSome = true := by
  unfold tryLit
  rw [hl, stripCI_of_map_eq hmap]
  dsimp only
  exact tryVal_isSome_of t hx

theorem matchTail_isSome_utm {l : List Char} (h : (tryUtm l).isSome = true) :
    (matchTail l).isSome = true := by
  unfold matchTail
  cases hu : tryUtm l with
  | some r => rfl
  | none => rw [hu] at h; cases h

theorem matchTail_isSome_lit {l : List Char}
    (h : (tryLit ['f', 'b', 'c', 'l', 'i', 'd'] l).isSome = true ∨
         (tryLit ['g', 'c', 'l', 'i', 'd'] l).isSome = true ∨
         (tryLit ['m', 'c', '_', 'c', 'i', 'd'] l).isSome = true ∨
         (tryLit ['m', 'c', '_', 'e', 'i', 'd'] l).isSome = true) :
    (matchTail l).isSome = true := by
  unfold matchTail
  cases hu : tryUtm l with
  | some r => rfl
  | none =>
    cases h1 : tryLit ['f', 'b', 'c', 'l', 'i', 'd'] l with
    | some r => rfl
    | none =>
      cases h2 : tryLit ['g', 'c', 'l', 'i', 'd'] l with
      | some r => rfl
      | none =>
        cases h3 : tryLit ['m', 'c', '_', 'c', 'i', 'd'] l with
        | some r => rfl
        | none =>
          cases h4 : tryLit ['m', 'c', '_', 'e', 'i', 'd'] l with
          | some r => rfl
          | none =>
            rw [h1, h2, h3, h4] at h
            simp at h

theorem matchTail_some_cases {l r : List Char} (h : matchTail l = some r) :
    tryUtm l = some r ∨ tryLit ['f', 'b', 'c', 'l', 'i', 'd'] l = some r ∨
    tryLit ['g', 'c', 'l', 'i', 'd'] l = some r ∨
    tryLit ['m', 'c', '_', 'c', 'i', 'd'] l = some r ∨
    tryLit ['m', 'c', '_', 'e', 'i', 'd'] l = some r := by
  unfold matchTail at h
  cases hu : tryUtm l with
  | some r' =>
    rw [hu] at h
    dsimp only at h
    exact Or.inl h
  | none =>
    rw [hu] at h
    dsimp only at h
    cases h1 : tryLit ['f', 'b', 'c', 'l', 'i', 'd'] l with
    | some r' =>
      rw [h1] at h
      dsimp only at h
      exact Or.inr (Or.inl h)
    | none =>
      rw [h1] at h
      dsimp only at h
      cases h2 : tryLit ['g', 'c', 'l', 'i', 'd'] l with
      | some r' =>
        rw [h2] at h
        dsimp only at h
        exact Or.inr (Or.inr (Or.inl h))
      | none =>
        rw [h2] at h
        dsimp only at h
        cases h3 : tryLit ['m', 'c', '_', 'c', 'i', 'd'] l with
        | some r' =>
          rw [h3] at h
          dsimp only at h
          exact Or.inr (Or.inr (Or.inr (Or.inl h)))
        | none =>
          rw [h3] at h
          dsimp only at h
          exact Or.inr (Or.inr (Or.inr (Or.inr h)))

theorem rChar_of_mapped {w lit : List Char} (hmap : w.map lowChar = lit)
    (hne : '=' ∉ lit) : ∀ y ∈ w, rChar y = true := by
  intro y hy
  by_cases hy2 : y = '='
  · subst hy2
    have hm : lowChar '=' ∈ lit := hmap ▸ List.mem_map_of_mem _ hy
    exact absurd hm hne
  · simp [rChar, hy2]

theorem vChar_of_mapped {w lit : List Char} (hmap : w.map lowChar = lit)
    (hamp : '&' ∉ lit) (hhash : '#' ∉ lit) : ∀ y ∈ w, vChar y = true := by
  intro y hy
  cases hv : vChar y with
  | true => rfl
  | false =>
    exfalso
    rcases vChar_false_iff.1 hv with rfl | rfl
    · exact hamp (hmap ▸ List.mem_map_of_mem _ hy)
    · exact hhash (hmap ▸ List.mem_map_of_mem _ hy)

theorem matchTail_some_exists_pre {l r : List Char} (h : matchTail l = some r) :
    ∃ pre, l = pre ++ r := by
  rcases matchTail_some_cases h with h | h | h | h | h
  · obtain ⟨w, n, val, hl, -, -, -, -, -, -⟩ := tryUtm_some_shape h
    exact ⟨w ++ (n ++ '=' :: val), by rw [hl]; simp [List.append_assoc]⟩
  all_goals {
    obtain ⟨w, val, hl, -, -, -, -⟩ := tryLit_some_shape h
    exact ⟨w ++ '=' :: val, by rw [hl]; simp [List.append_assoc]⟩ }

theorem matchTail_some_length {l r : List Char} (h : matchTail l = some r) :
    r.length ≤ l.length := by
  obtain ⟨pre, hpre⟩ := matchTail_some_exists_pre h
  rw [hpre, List.length_append]
  omega

theorem matchTail_some_blocked {l r : List Char} (h : matchTail l = some r) :
    blockedB r = true := by
  rcases matchTail_some_cases h with h | h | h | h | h
  · obtain ⟨-, -, -, -, -, -, -, -, -, hb⟩ := tryUtm_some_shape h
    exact hb
  all_goals {
    obtain ⟨-, -, -, -, -, -, hb⟩ := tryLit_some_shape h
    exact hb }

theorem matchTail_some_shape {cs r : List Char} (h : matchTail cs = some r) :
    ∃ w2 x2 t2, cs = w2 ++ '=' :: x2 :: t2 ∧ (∀ y ∈ w2, rChar y = true) ∧
      vChar x2 = true := by
  rcases matchTail_some_cases h with h | h | h | h | h
  · obtain ⟨w, n, val, hl, hmap, -, hnr, hval, hvv, -⟩ := tryUtm_some_shape h
    obtain ⟨x, val', rfl⟩ := List.exists_cons_of_ne_nil hval
    refine ⟨w ++ n, x, val' ++ r, ?_, ?_, hvv x (List.mem_cons_self _ _)⟩
    · rw [hl]; simp [List.append_assoc]
    · intro y hy
      rcases List.mem_append.1 hy with hy | hy
      · exact rChar_of_mapped hmap (by decide) y hy
      · exact hnr y hy
  all_goals {
    obtain ⟨w, val, hl, hmap, hval, hvv, -⟩ := tryLit_some_shape h
    obtain ⟨x, val', rfl⟩ := List.exists_cons_of_ne_nil hval
    refine ⟨w, x, val' ++ r, ?_, rChar_of_mapped hmap (by decide),
      hvv x (List.mem_cons_self _ _)⟩
    rw [hl]; simp [List.append_assoc] }

theorem matchTail_isSome_append {t : List Char} (e : List Char)
    (h : (matchTail t).isSome = true) : (matchTail (t ++ e)).isSome = true := by
  cases hmt : matchTail t with
  | none => rw [hmt] at h; cases h
  | some r =>
    rcases matchTail_some_cases hmt with hbr | hbr | hbr | hbr | hbr
    · obtain ⟨w, n, val, hl, hmap, hn, hnr, hval, hvv, -⟩ := tryUtm_some_shape hbr
      obtain ⟨x, val', rfl⟩ := List.exists_cons_of_ne_nil hval
      have hbuild : t ++ e = w ++ (n ++ '=' :: x :: (val' ++ r ++ e)) := by
        rw [hl]; simp [List.append_assoc]
      exact matchTail_isSome_utm (tryUtm_isSome_of hbuild hmap hn hnr
        (hvv x (List.mem_cons_self _ _)))
    · obtain ⟨w, val, hl, hmap, hval, hvv, -⟩ := tryLit_some_shape hbr
      obtain ⟨x, val', rfl⟩ := List.exists_cons_of_ne_nil hval
      have hbuild : t ++ e = w ++ '=' :: x :: (val' ++ r ++ e) := by
        rw [hl]; simp [List.append_assoc]
      exact matchTail_isSome_lit (Or.inl (tryLit_isSome_of hbuild hmap
        (hvv x (List.mem_cons_self _ _))))
    · obtain ⟨w, val, hl, hmap, hval, hvv, -⟩ := tryLit_some_shape hbr
      obtain ⟨x, val', rfl⟩ := List.exists_cons_of_ne_nil hval
      have hbuild : t ++ e = w ++ '=' :: x :: (val' ++ r ++ e) := by
        rw [hl]; simp [List.append_assoc]
      exact matchTail_isSome_lit (Or.inr (Or.inl (tryLit_isSome_of hbuild hmap
        (hvv x (List.mem_cons_self _ _)))))
    · obtain ⟨w, val, hl, hmap, hval, hvv, -⟩ := tryLit_some_shape hbr
      obtain ⟨x, val', rfl⟩ := List.exists_cons_of_ne_nil hval
      have hbuild : t ++ e = w ++ '=' :: x :: (val' ++ r ++ e) := by
        rw [hl]; simp [List.append_assoc]
      exact matchTail_isSome_lit (Or.inr (Or.inr (Or.inl (tryLit_isSome_of
        hbuild hmap (hvv x (List.mem_cons_self _ _))))))
    · obtain ⟨w, val, hl, hmap, hval, hvv, -⟩ := tryLit_some_shape hbr
      obtain ⟨x, val', rfl⟩ := List.exists_cons_of_ne_nil hval
      have hbuild : t ++ e = w ++ '=' :: x :: (val' ++ r ++ e) := by
        rw [hl]; simp [List.append_assoc]
      exact matchTail_isSome_lit (Or.inr (Or.inr (Or.inr (tryLit_isSome_of
        hbuild hmap (hvv x (List.mem_cons_self _ _))))))

theorem sub1F_nil : ∀ n, sub1F n [] = [] := by
  intro n
  cases n <;> rfl

theorem sub1F_fuel : ∀ (n m : Nat) (l : List Char), l.length ≤ n →
    l.length ≤ m → sub1F n l = sub1F m l := by
  intro n
  induction n with
  | zero =>
    intro m l hn _
    rw [List.length_eq_zero.1 (Nat.le_zero.1 hn), sub1F_nil, sub1F_nil]
  | succ n ih =>
    intro m l hn hm
    cases l with
    | nil => rw [sub1F_nil, sub1F_nil]
    | cons c cs =>
      cases m with
      | zero => exact absurd hm (by simp)
      | succ m =>
        have hcn : cs.length ≤ n := by
          simp only [List.length_cons] at hn; omega
        have hcm : cs.length ≤ m := by
          simp only [List.length_cons] at hm; omega
        rw [sub1F, sub1F]
        by_cases hq : isQA c
        · rw [if_pos hq, if_pos hq]
          cases hmt : matchTail cs with
          | none =>
            show c :: sub1F n cs = c :: sub1F m cs
            rw [ih m cs hcn hcm]
          | some r =>
            have hr : r.length ≤ cs.length := matchTail_some_length hmt
            show sub1F n r = sub1F m r
            rw [ih m r (le_trans hr hcn) (le_trans hr hcm)]
        · rw [if_neg hq, if_neg hq, ih m cs hcn hcm]

theorem sub1_nil : sub1 [] = [] := rfl

theorem sub1_cons_not_qa {c : Char} {cs : List Char} (h : isQA c = false) :
    sub1 (c :: cs) = c :: sub1 cs := by
  show sub1F (c :: cs).length (c :: cs) = _
  rw [List.length_cons, sub1F, if_neg (by simp [h])]
  rfl

theorem sub1_cons_none {c : Char} {cs : List Char} (h : matchTail cs = none) :
    sub1 (c :: cs) = c :: sub1 cs := by
  by_cases hq : isQA c
  · show sub1F (c :: cs).length (c :: cs) = _
    rw [List.length_cons, sub1F, if_pos hq, h]
    rfl
  · exact sub1_cons_not_qa (by simpa using hq)

theorem sub1_cons_some {c : Char} {cs r : List Char} (hq : isQA c = true)
    (h : matchTail cs = some r) : sub1 (c :: cs) = sub1 r := by
  show sub1F (c :: cs).length (c :: cs) = _
  rw [List.length_cons, sub1F, if_pos hq, h]
  exact sub1F_fuel cs.length r.length r (matchTail_some_length h) le_rfl

theorem tryLit_resume_contra {lit p z0 r1 r : List Char}
    (hamp : '&' ∉ lit) (hhash : '#' ∉ lit)
    (hlift : ∀ z : List Char, (tryLit lit z).isSome = true →
      (matchTail z).isSome = true)
    (hnone : matchTail (p ++ z0) = none) (hb : blockedB r1 = true)
    (h : tryLit lit (p ++ r1) = some r) : False := by
  obtain ⟨w, val, hl, hmap, hval, hvv, -⟩ := tryLit_some_shape h
  rcases List.append_eq_append_iff.1 hl with ⟨a, ha1, ha2⟩ | ⟨a, ha1, ha2⟩
  · cases a with
    | nil =>
      rw [List.nil_append] at ha2
      rw [ha2] at hb
      exact absurd (blockedB_cons_iff.1 hb) (by decide)
    | cons y ys =>
      rw [List.cons_append] at ha2
      have hyw : y ∈ w := by
        rw [ha1]
        exact List.mem_append_right _ (List.mem_cons_self _ _)
      have hy : vChar y = true := vChar_of_mapped hmap hamp hhash y hyw
      rw [ha2] at hb
      rw [blockedB_cons_iff.1 hb] at hy
      cases hy
  · cases a with
    | nil =>
      rw [List.nil_append] at ha2
      rw [← ha2] at hb
      exact absurd (blockedB_cons_iff.1 hb) (by decide)
    | cons y ys =>
      rw [List.cons_append] at ha2
      injection ha2 with hy h2
      subst hy
      cases ys with
      | nil =>
        rw [List.nil_append] at h2
        obtain ⟨x, val', rfl⟩ := List.exists_cons_of_ne_nil hval
        rw [List.cons_append] at h2
        rw [← h2] at hb
        have hx := hvv x (List.mem_cons_self _ _)
        rw [blockedB_cons_iff.1 hb] at hx
        cases hx
      | cons z zs =>
        obtain ⟨x, val', rfl⟩ := List.exists_cons_of_ne_nil hval
        rw [List.cons_append, List.cons_append] at h2
        injection h2 with hxz h3
        subst hxz
        have hbuild : p ++ z0 = w ++ '=' :: x :: (zs ++ z0) := by
          rw [ha1]
          simp [List.append_assoc, List.cons_append]
        have hsome := hlift (p ++ z0)
          (tryLit_isSome_of hbuild hmap (hvv x (List.mem_cons_self _ _)))
        rw [hnone] at hsome
        cases hsome

theorem tryUtm_resume_contra {p : List Char} {c : Char} {cs r1 r : List Char}
    (hnone : matchTail (p ++ c :: cs) = none) (hc : isQA c = true)
    (hm : matchTail cs = some r1)
    (h : tryUtm (p ++ r1) = some r) : False := by
  have hb : blockedB r1 = true := matchTail_some_blocked hm
  obtain ⟨w2, x2, t2, hcs, hw2, hx2⟩ := matchTail_some_shape hm
  obtain ⟨w, n, val, hl, hmap, hn, hnr, hval, hvv, -⟩ := tryUtm_some_shape h
  have hl' : p ++ r1 = (w ++ n) ++ '=' :: (val ++ r) := by
    rw [hl, List.append_assoc]
  rcases List.append_eq_append_iff.1 hl' with ⟨a, ha1, ha2⟩ | ⟨a, ha1, ha2⟩
  · rcases List.append_eq_append_iff.1 ha1 with ⟨k, hk1, hk2⟩ | ⟨k, hk1, hk2⟩
    · have hkr : ∀ y ∈ k ++ c :: w2, rChar y = true := by
        intro y hy
        rcases List.mem_append.1 hy with hy | hy
        · exact hnr y (by rw [hk2]; exact List.mem_append_left _ hy)
        · rcases List.mem_cons.1 hy with rfl | hy
          · exact isQA_rChar hc
          · exact hw2 y hy
      have hbuild : p ++ c :: cs =
          w ++ ((k ++ c :: w2) ++ '=' :: x2 :: t2) := by
        rw [hk1, hcs]
        simp [List.append_assoc, List.cons_append]
      have hsome := matchTail_isSome_utm
        (tryUtm_isSome_of hbuild hmap (by simp) hkr hx2)
      rw [hnone] at hsome
      cases hsome
    · cases k with
      | nil =>
        rw [List.append_nil] at hk1
        have hkr : ∀ y ∈ c :: w2, rChar y = true := by
          intro y hy
          rcases List.mem_cons.1 hy with rfl | hy
          · exact isQA_rChar hc
          · exact hw2 y hy
        have hbuild : p ++ c :: cs = w ++ ((c :: w2) ++ '=' :: x2 :: t2) := by
          rw [← hk1, hcs]
          simp [List.append_assoc, List.cons_append]
        have hsome := matchTail_isSome_utm
          (tryUtm_isSome_of hbuild hmap (by simp) hkr hx2)
        rw [hnone] at hsome
        cases hsome
      | cons y ys =>
        rw [List.cons_append] at hk2
        rw [hk2, List.cons_append] at ha2
        have hyw : y ∈ w := by
          rw [hk1]
          exact List.mem_append_right _ (List.mem_cons_self _ _)
        have hy : vChar y = true :=
          vChar_of_mapped hmap (by decide) (by decide) y hyw
        rw [ha2] at hb
        rw [blockedB_cons_iff.1 hb] at hy
        cases hy
  · cases a with
    | nil =>
      rw [List.nil_append] at ha2
      rw [← ha2] at hb
      exact absurd (blockedB_cons_iff.1 hb) (by decide)
    | cons y ys =>
      rw [List.cons_append] at ha2
      injection ha2 with hy h2
      subst hy
      cases ys with
      | nil =>
        rw [List.nil_append] at h2
        obtain ⟨x, val', rfl⟩ := List.exists_cons_of_ne_nil hval
        rw [List.cons_append] at h2
        rw [← h2] at hb
        have hx := hvv x (List.mem_cons_self _ _)
        rw [blockedB_cons_iff.1 hb] at hx
        cases hx
      | cons z zs =>
        obtain ⟨x, val', rfl⟩ := List.exists_cons_of_ne_nil hval
        rw [List.cons_append, List.cons_append] at h2
        injection h2 with hxz h3
        subst hxz
        have hbuild : p ++ c :: cs =
            w ++ (n ++ '=' :: x :: (zs ++ c :: cs)) := by
          rw [ha1]
          simp [List.append_assoc, List.cons_append]
        have hsome := matchTail_isSome_utm
          (tryUtm_isSome_of hbuild hmap hn hnr (hvv x (List.mem_cons_self _ _)))
        rw [hnone] at hsome
        cases hsome

/-- If the suffix starting at a deletable occurrence matched, deleting the
match and resuming cannot create a new occurrence at any earlier
position. -/
theorem matchTail_none_resume {p : List Char} {c : Char} {cs r1 : List Char}
    (hnone : matchTail (p ++ c :: cs) = none) (hc : isQA c = true)
    (hm : matchTail cs = some r1) : matchTail (p ++ r1) = none := by
  have hb : blockedB r1 = true := matchTail_some_blocked hm
  cases hres : matchTail (p ++ r1) with
  | none => rfl
  | some r =>
    exfalso
    rcases matchTail_some_cases hres with h | h | h | h | h
    · exact tryUtm_resume_contra hnone hc hm h
    · exact tryLit_resume_contra (by decide) (by decide)
        (fun z hz => matchTail_isSome_lit (Or.inl hz)) hnone hb h
    · exact tryLit_resume_contra (by decide) (by decide)
        (fun z hz => matchTail_isSome_lit (Or.inr (Or.inl hz))) hnone hb h
    · exact tryLit_resume_contra (by decide) (by decide)
        (fun z hz => matchTail_isSome_lit (Or.inr (Or.inr (Or.inl hz)))) hnone hb h
    · exact tryLit_resume_contra (by decide) (by decide)
        (fun z hz => matchTail_isSome_lit (Or.inr (Or.inr (Or.inr hz)))) hnone hb h

/-- Scanning a suffix that admitted no occurrence at any position relative
to a fixed prefix cannot create one. -/
theorem sub1_preserves_none :
    ∀ (n : Nat) (l p : List Char), l.length ≤ n →
      matchTail (p ++ l) = none → matchTail (p ++ sub1 l) = none := by
  intro n
  induction n with
  | zero =>
    intro l p hl h
    rw [List.length_eq_zero.1 (Nat.le_zero.1 hl)] at h ⊢
    exact h
  | succ n ih =>
    intro l p hl h
    cases l with
    | nil => exact h
    | cons c cs =>
      have hcs : cs.length ≤ n := by
        simp only [List.length_cons] at hl; omega
      by_cases hq : isQA c = true
      · cases hmt : matchTail cs with
        | some r1 =>
          rw [sub1_cons_some hq hmt]
          exact ih r1 p (le_trans (matchTail_some_length hmt) hcs)
            (matchTail_none_resume h hq hmt)
        | none =>
          rw [sub1_cons_none hmt]
          have h' : matchTail ((p ++ [c]) ++ cs) = none := by
            simpa [List.append_assoc] using h
          have := ih cs (p ++ [c]) hcs h'
          simpa [List.append_assoc] using this
      · rw [sub1_cons_not_qa (by simpa using hq)]
        have h' : matchTail ((p ++ [c]) ++ cs) = none := by
          simpa [List.append_assoc] using h
        have := ih cs (p ++ [c]) hcs h'
        simpa [List.append_assoc] using this

/-- The output of the first substitution contains no deletable occurrence:
the substitution is exhaustive in one pass. -/
theorem hasMatch_sub1 : ∀ (n : Nat) (l : List Char), l.length ≤ n →
    hasMatch (sub1 l) = false := by
  intro n
  induction n with
  | zero =>
    intro l hl
    rw [List.length_eq_zero.1 (Nat.le_zero.1 hl)]
    rfl
  | succ n ih =>
    intro l hl
    cases l with
    | nil => rfl
    | cons c cs =>
      have hcs : cs.length ≤ n := by
        simp only [List.length_cons] at hl; omega
      by_cases hq : isQA c = true
      · cases hmt : matchTail cs with
        | some r1 =>
          rw [sub1_cons_some hq hmt]
          exact ih r1 (le_trans (matchTail_some_length hmt) hcs)
        | none =>
          rw [sub1_cons_none hmt, hasMatch]
          have h1 : matchTail (sub1 cs) = none := by
            have := sub1_preserves_none n cs [] hcs (by simpa using hmt)
            simpa using this
          simp [h1, ih cs hcs]
      · rw [sub1_cons_not_qa (by simpa using hq), hasMatch]
        simp only [Bool.or_eq_false_iff, Bool.and_eq_false_iff]
        exact ⟨Or.inl (by simpa using hq), ih cs hcs⟩

/-- On a list with no deletable occurrence the first substitution is the
identity. -/
theorem sub1_no_match : ∀ l : List Char, hasMatch l = false → sub1 l = l := by
  intro l
  induction l with
  | nil => intro _; rfl
  | cons c cs ih =>
    intro h
    rw [hasMatch] at h
    simp only [Bool.or_eq_false_iff, Bool.and_eq_false_iff] at h
    obtain ⟨h1, h2⟩ := h
    rcases h1 with h1 | h1
    · rw [sub1_cons_not_qa h1, ih h2]
    · cases hmt : matchTail cs with
      | none => rw [sub1_cons_none hmt, ih h2]
      | some r => rw [hmt] at h1; cases h1

theorem mem_sub1 : ∀ (n : Nat) (l : List Char), l.length ≤ n →
    ∀ x ∈ sub1 l, x ∈ l := by
  intro n
  induction n with
  | zero =>
    intro l hl
    rw [List.length_eq_zero.1 (Nat.le_zero.1 hl)]
    intro x hx
    exact hx
  | succ n ih =>
    intro l hl
    cases l with
    | nil => intro x hx; exact hx
    | cons c cs =>
      have hcs : cs.length ≤ n := by
        simp only [List.length_cons] at hl; omega
      intro x hx
      by_cases hq : isQA c = true
      · cases hmt : matchTail cs with
        | some r =>
          rw [sub1_cons_some hq hmt] at hx
          have hxr : x ∈ r := ih r (le_trans (matchTail_some_length hmt) hcs) x hx
          obtain ⟨pre, hpre⟩ := matchTail_some_exists_pre hmt
          refine List.mem_cons_of_mem _ ?_
          rw [hpre]
          exact List.mem_append_right _ hxr
        | none =>
          rw [sub1_cons_none hmt] at hx
          rcases List.mem_cons.1 hx with rfl | hx
          · exact List.mem_cons_self _ _
          · exact List.mem_cons_of_mem _ (ih cs hcs x hx)
      · rw [sub1_cons_not_qa (by simpa using hq)] at hx
        rcases List.mem_cons.1 hx with rfl | hx
        · exact List.mem_cons_self _ _
        · exact List.mem_cons_of_mem _ (ih cs hcs x hx)

theorem hasMatch_append : ∀ (a e : List Char), hasMatch a = true →
    hasMatch (a ++ e) = true := by
  intro a
  induction a with
  | nil =>
    intro e h
    cases h
  | cons c cs ih =>
    intro e h
    rw [List.cons_append, hasMatch]
    rw [hasMatch] at h
    rcases (Bool.or_eq_true _ _).mp h with h | h
    · rcases (Bool.and_eq_true _ _).mp h with ⟨hq, hs⟩
      have := matchTail_isSome_append e hs
      simp [hq, this]
    · simp [ih e h]

theorem dropWhile_idem {p : Char → Bool} (l : List Char) :
    (l.dropWhile p).dropWhile p = l.dropWhile p := by
  cases hd : l.dropWhile p with
  | nil => rfl
  | cons d ds =>
    rw [List.dropWhile_cons_of_neg (by simp [dropWhile_head_prop hd])]

theorem sub2_no_newline {l : List Char} (h : '\n' ∉ l) :
    sub2 l = (l.reverse.dropWhile isQA).reverse := by
  unfold sub2
  split
  · rename_i rest heq
    exfalso
    apply h
    rw [← List.mem_reverse, heq]
    exact List.mem_cons_self _ _
  · rfl

/-- C9 counterexample: `strip_utm` is not idempotent on every string.  With
a trailing newline Python's `$` lets the second substitution strip a
`?`/`&` run in front of the newline, which can expose a new such run: one
pass over `"??\n??"` yields `"??\n"`, a second pass shortens it further to
`"\n"`. -/
theorem C9_counterexample :
    strip_utm "??\n??" = "??\n" ∧
    strip_utm (strip_utm "??\n??") = "\n" ∧
    strip_utm (strip_utm "??\n??") ≠ strip_utm "??\n??" := by
  decide

/-- C9 (amended): URL canonicalization is idempotent on every string that
contains no newline (every URL the program actually builds): the first
substitution leaves no deletable tracking occurrence behind, and removing
the trailing `?`/`&` run cannot create one, so the second pass is the
identity.  Non-idempotence arises only through the `$`-before-final-newline
semantics of `re.sub(r"[?&]+$", ...)`. -/
theorem C9_amended (u : String) (h : '\n' ∉ u.data) :
    strip_utm (strip_utm u) = strip_utm u := by
  by_cases hu : u = ""
  · subst hu
    rfl
  · have h1 : strip_utm u = ⟨sub2 (sub1 u.data)⟩ := by
      rw [strip_utm, if_neg hu]
    have hnlw : '\n' ∉ sub1 u.data :=
      fun hx => h (mem_sub1 u.data.length u.data le_rfl _ hx)
    have h2 : sub2 (sub1 u.data) =
        ((sub1 u.data).reverse.dropWhile isQA).reverse := sub2_no_newline hnlw
    have hsplit : sub1 u.data =
        ((sub1 u.data).reverse.dropWhile isQA).reverse ++
          ((sub1 u.data).reverse.takeWhile isQA).reverse := by
      have hrr : sub1 u.data =
          ((sub1 u.data).reverse.takeWhile isQA ++
            (sub1 u.data).reverse.dropWhile isQA).reverse := by
        rw [List.takeWhile_append_dropWhile, List.reverse_reverse]
      rw [List.reverse_append] at hrr
      exact hrr
    have hmv : hasMatch (((sub1 u.data).reverse.dropWhile isQA).reverse)
        = false := by
      cases hvv : hasMatch (((sub1 u.data).reverse.dropWhile isQA).reverse) with
      | false => rfl
      | true =>
        have hmw : hasMatch (sub1 u.data) = false :=
          hasMatch_sub1 u.data.length u.data le_rfl
        have := hasMatch_append _
          (((sub1 u.data).reverse.takeWhile isQA).reverse) hvv
        rw [← hsplit, hmw] at this
        cases this
    have hnlv : '\n' ∉ ((sub1 u.data).reverse.dropWhile isQA).reverse := by
      intro hx
      apply hnlw
      rw [hsplit]
      exact List.mem_append_left _ hx
    rw [h1, h2]
    by_cases hv0 : (⟨((sub1 u.data).reverse.dropWhile isQA).reverse⟩ : String) = ""
    · rw [hv0]
      rfl
    · rw [strip_utm, if_neg hv0]
      show (⟨sub2 (sub1 (((sub1 u.data).reverse.dropWhile isQA).reverse))⟩ :
        String) = _
      rw [sub1_no_match _ hmv, sub2_no_newline hnlv, List.reverse_reverse,
        dropWhile_idem]

/-- Witness: a concrete newline-free URL with a strippable parameter and a
trailing junk run is a fixed point after one pass. -/
theorem C9_amended_witness :
    '\n' ∉ ("http://x/p?utm_a=1&b=2&" : String).data ∧
    strip_utm (strip_utm "http://x/p?utm_a=1&b=2&") =
      strip_utm "http://x/p?utm_a=1&b=2&" :=
  ⟨by decide, C9_amended "http://x/p?utm_a=1&b=2&" (by decide)⟩

end RunFetch
